import Mathlib

/-!
# A* shortest path on a fixed 8x8 grid (`src/main.cpp`)

A shallow embedding of `findShortestPath` and of the helpers it calls, followed by
theorems about the search.

Modelling conventions.

* `int` is `Int`.  Every coordinate handled by the search lies in `[-1, 8]` and every
  cost is a path length on the 8x8 grid, so no machine overflow can occur.
* `vector<vector<T>>` is `List (List T)`; `tbl[y][x]` is the total lookup `index2D`,
  which answers `none` where the C++ subscript would leave the vector (undefined
  behaviour in the source).
* `Node*` is a value of the inductive type `Node` (the pointed-to record together with
  its chain of predecessors); `nullptr` is `none`.  Nodes are never modified after they
  have been pushed, so the value and the pointer carry the same information.  The nodes
  are never freed by the source, and nothing in the model depends on that.
* `std::priority_queue<Node*, vector<Node*>, Cmp>` is its underlying vector in heap
  order, manipulated by `std::push_heap` / `std::pop_heap` as implemented in libstdc++
  (`bits/stl_heap.h`): `pqPush` is `push_back` followed by `push_heap`, `pqPop` is
  `pop_heap` followed by `pop_back`, `pqTop` is `front`.
* The `while` loop is iterated by `searchLoop` under a fuel counter; `findShortestPath`
  supplies `searchFuel`, which is shown to be more than the loop can use.
-/

namespace AStar

/-! ## Data model -/

/-- The constant `gridSize` of the source. -/
def gridSize : Int := 8

/-- A 2D point, `struct Coordinate`. -/
structure Coordinate where
  x : Int
  y : Int
deriving DecidableEq, Repr

/-- A search node, `struct Node`, with `parent` the predecessor pointer. -/
inductive Node where
  | mk (coordinates : Coordinate) (G : Int) (H : Int) (parent : Option Node)
deriving Repr

/-- Field `coordinates` of a node. -/
def Node.coordinates : Node → Coordinate
  | .mk c _ _ _ => c

/-- Field `G`: cost from the start to this node. -/
def Node.G : Node → Int
  | .mk _ g _ _ => g

/-- Field `H`: heuristic value of this node. -/
def Node.H : Node → Int
  | .mk _ _ h _ => h

/-- Field `parent` (`none` is `nullptr`). -/
def Node.parent : Node → Option Node
  | .mk _ _ _ p => p

/-- The member function `Node::F`. -/
def Node.F (n : Node) : Int := n.G + n.H

/-- The C library `abs` on `int`. -/
def intAbs (v : Int) : Int := if v < 0 then -v else v

/-- Manhattan distance heuristic, `manhattanDistance`. -/
def manhattanDistance (source target : Coordinate) : Int :=
  intAbs (source.x - target.x) + intAbs (source.y - target.y)

/-- Bounds check, `isValidCoordinate`. -/
def isValidCoordinate (x y : Int) : Bool :=
  decide (x ≥ 0) && decide (x < gridSize) && decide (y ≥ 0) && decide (y < gridSize)

/-- Lookup `tbl[y][x]` with `int` subscripts; `none` when a subscript is out of range. -/
def index2D {α : Type} (tbl : List (List α)) (y x : Int) : Option α :=
  if y < 0 ∨ x < 0 then none
  else
    match tbl[y.toNat]? with
    | none => none
    | some row => row[x.toNat]?

/-- Assignment `tbl[y][x] = v`; `none` when a subscript is out of range. -/
def set2D {α : Type} (tbl : List (List α)) (y x : Int) (v : α) : Option (List (List α)) :=
  if y < 0 ∨ x < 0 then none
  else
    match tbl[y.toNat]? with
    | none => none
    | some row =>
      if x.toNat < row.length then some (tbl.set y.toNat (row.set x.toNat v)) else none

/-- Traversability test, `isTraversable`: the grid is read only after the bounds check
succeeded (`&&` short-circuits).  `none` when `grid[y][x]` is out of range. -/
def isTraversable (grid : List (List Int)) (x y : Int) : Option Bool :=
  if isValidCoordinate x y then
    match index2D grid y x with
    | none => none
    | some v => some (v == 0)
  else some false

/-! ## The priority queue (binary heap of libstdc++) -/

/-- The loop of `std::__push_heap`: move the hole up while the parent compares
greater than `value`, then store `value` in the hole. -/
def pushHeapLoop {α : Type} (comp : α → α → Bool) (value : α) (topIndex : Nat) :
    Nat → List α → Nat → List α
  | 0, first, holeIndex => first.set holeIndex value
  | fuel + 1, first, holeIndex =>
    let parent := (holeIndex - 1) / 2
    match first[parent]? with
    | none => first.set holeIndex value
    | some p =>
      if decide (holeIndex > topIndex) && comp p value then
        pushHeapLoop comp value topIndex fuel (first.set holeIndex p) parent
      else first.set holeIndex value

/-- The first loop of `std::__adjust_heap`: move the hole down to the bottom level,
following at each level the child that does not compare less; `holeIndex` and
`secondChild` coincide at every loop head, so one index is carried. -/
def adjustHeapLoop {α : Type} (comp : α → α → Bool) (len : Nat) :
    Nat → List α → Nat → List α × Nat
  | 0, first, holeIndex => (first, holeIndex)
  | fuel + 1, first, holeIndex =>
    if holeIndex < (len - 1) / 2 then
      let secondChild := 2 * (holeIndex + 1)
      match first[secondChild]?, first[secondChild - 1]? with
      | some r, some l =>
        if comp r l then
          adjustHeapLoop comp len fuel (first.set holeIndex l) (secondChild - 1)
        else
          adjustHeapLoop comp len fuel (first.set holeIndex r) secondChild
      | _, _ => (first, holeIndex)
    else (first, holeIndex)

/-- The function `std::__adjust_heap` for `len ≥ 1`: the hole goes down to a leaf (with
the special case of a last node that has a single child), then `value` is pushed up
from there by `std::__push_heap`. -/
def adjustHeap {α : Type} (comp : α → α → Bool) (first : List α) (holeIndex len : Nat)
    (value : α) : List α :=
  let topIndex := holeIndex
  let r := adjustHeapLoop comp len len first holeIndex
  let r2 : List α × Nat :=
    if len % 2 = 0 ∧ r.2 = (len - 2) / 2 then
      match r.1[2 * (r.2 + 1) - 1]? with
      | some c => (r.1.set r.2 c, 2 * (r.2 + 1) - 1)
      | none => r
    else r
  pushHeapLoop comp value topIndex len r2.1 r2.2

/-- The member `priority_queue::push`: `c.push_back(x); std::push_heap(c.begin(), c.end(), comp)`. -/
def pqPush {α : Type} (comp : α → α → Bool) (c : List α) (x : α) : List α :=
  pushHeapLoop comp x 0 (c.length + 1) (c ++ [x]) c.length

/-- The member `priority_queue::top`: `c.front()`. -/
def pqTop {α : Type} (c : List α) : Option α := c.head?

/-- The member `priority_queue::pop`: `std::pop_heap(c.begin(), c.end(), comp); c.pop_back()`.
For more than one element `pop_heap` saves the last element, overwrites it with the
first and calls `__adjust_heap` on the shorter range; `pop_back` then drops the slot
that received the old first element. -/
def pqPop {α : Type} (comp : α → α → Bool) (c : List α) : List α :=
  match c.getLast? with
  | none => []
  | some value =>
    if c.length > 1 then adjustHeap comp c.dropLast 0 (c.length - 1) value
    else c.dropLast

/-! ## The search -/

/-- The comparator lambda of `openSet`: `a->F() > b->F()`. -/
def nodeComp (a b : Node) : Bool := decide (a.F > b.F)

/-- The local constant `target` of `findShortestPath`. -/
def target : Coordinate := ⟨7, 7⟩

/-- The array `dx` of the loop body. -/
def dx : List Int := [0, 1, 0, -1]

/-- The array `dy` of the loop body. -/
def dy : List Int := [-1, 0, 1, 0]

/-- The pairs `(dx[i], dy[i])` for `i = 0, 1, 2, 3` (up, right, down, left), in the
order in which the `for` loop visits them. -/
def directions : List (Int × Int) := dx.zip dy

/-- The variables that live across iterations of the `while` loop. -/
structure SearchState where
  openSet : List Node
  visited : List (List Bool)

/-- The path reconstruction loop before `reverse`: the coordinates from `current`
back along the `parent` pointers to the node without parent. -/
def Node.chain : Node → List Coordinate
  | .mk c _ _ none => [c]
  | .mk c _ _ (some p) => c :: p.chain

/-- Path reconstruction: follow `parent` to `nullptr`, then `reverse`. -/
def reconstructPath (current : Node) : List Coordinate := current.chain.reverse

/-- One iteration of the `for` loop over the four directions; `none` when a subscript
leaves `grid` or `visited`. -/
def exploreStep (grid : List (List Int)) (visited : List (List Bool)) (current : Node)
    (openSet : Option (List Node)) (d : Int × Int) : Option (List Node) :=
  match openSet with
  | none => none
  | some os =>
    let newX := current.coordinates.x + d.1
    let newY := current.coordinates.y + d.2
    match isTraversable grid newX newY with
    | none => none
    | some false => some os
    | some true =>
      match index2D visited newY newX with
      | none => none
      | some true => some os
      | some false =>
        some (pqPush nodeComp os
          (Node.mk ⟨newX, newY⟩ (current.G + 1) (manhattanDistance ⟨newX, newY⟩ target)
            (some current)))

/-- The `for` loop "Explore neighbors". -/
def exploreNeighbors (grid : List (List Int)) (visited : List (List Bool)) (current : Node)
    (openSet : List Node) : Option (List Node) :=
  directions.foldl (exploreStep grid visited current) (some openSet)

/-- What one iteration of the `while` loop does. -/
inductive StepResult where
  | done (path : List Coordinate)
  | next (s : SearchState)
  | fault

/-- One evaluation of the loop condition and, if it holds, of the loop body. -/
def step (grid : List (List Int)) (s : SearchState) : StepResult :=
  match pqTop s.openSet with
  | none => .done []
  | some current =>
    let openSet := pqPop nodeComp s.openSet
    if current.coordinates.x = target.x ∧ current.coordinates.y = target.y then
      .done (reconstructPath current)
    else
      match set2D s.visited current.coordinates.y current.coordinates.x true with
      | none => .fault
      | some visited =>
        match exploreNeighbors grid visited current openSet with
        | none => .fault
        | some openSet2 => .next ⟨openSet2, visited⟩

/-- How a call of `findShortestPath` ends: it returns a path, or it indexes a vector out
of range, or (in the model only) the fuel of the loop runs out. -/
inductive Outcome where
  | returned (path : List Coordinate)
  | outOfRange
  | outOfFuel
deriving DecidableEq, Repr

/-- The `while` loop, at most `fuel` iterations. -/
def searchLoop (grid : List (List Int)) : Nat → SearchState → Outcome
  | 0, _ => .outOfFuel
  | fuel + 1, s =>
    match step grid s with
    | .done path => .returned path
    | .fault => .outOfRange
    | .next s2 => searchLoop grid fuel s2

/-- The start node: `new Node(0, 0)` with `H` set to the heuristic. -/
def startNode : Node := Node.mk ⟨0, 0⟩ 0 (manhattanDistance ⟨0, 0⟩ target) none

/-- The state on entry to the `while` loop. -/
def initialState : SearchState :=
  ⟨pqPush nodeComp [] startNode, List.replicate 8 (List.replicate 8 false)⟩

/-- Fuel given to the loop by `findShortestPath`. -/
def searchFuel : Nat := 5 ^ 65

/-- The function `findShortestPath`. -/
def findShortestPath (grid : List (List Int)) : Outcome :=
  searchLoop grid searchFuel initialState

/-- The grid defined in `main`. -/
def mainGrid : List (List Int) :=
  [ [0, 0, 0, 0, 0, 0, 0, 0],
    [0, 0, 0, 0, 0, 0, 1, 0],
    [0, 0, 0, 1, 1, 1, 0, 0],
    [0, 0, 1, 1, 1, 1, 0, 0],
    [0, 0, 0, 1, 1, 1, 0, 0],
    [0, 0, 0, 0, 1, 1, 0, 0],
    [0, 0, 0, 0, 0, 0, 0, 0],
    [0, 0, 0, 0, 0, 0, 0, 0] ]


/-! ## Notions used to state the properties -/

/-- Heap order of a vector for the key `key`: no element is below its parent. -/
def IsHeap {α : Type} (key : α → Int) (a : List α) : Prop :=
  ∀ i p c, 0 < i → a[(i - 1) / 2]? = some p → a[i]? = some c → key p ≤ key c

/-- A table of exactly 8 rows of exactly 8 entries. -/
def Is8x8 {α : Type} (tbl : List (List α)) : Prop :=
  tbl.length = 8 ∧ ∀ row ∈ tbl, row.length = 8

instance {α : Type} (tbl : List (List α)) : Decidable (Is8x8 tbl) := by
  unfold Is8x8; infer_instance

/-- The coordinate lies inside the 8x8 grid. -/
def InBounds (c : Coordinate) : Prop := 0 ≤ c.x ∧ c.x < 8 ∧ 0 ≤ c.y ∧ c.y < 8

instance (c : Coordinate) : Decidable (InBounds c) := by
  unfold InBounds; infer_instance

/-- The coordinate lies inside the grid on a cell of value 0. -/
def Free (grid : List (List Int)) (c : Coordinate) : Prop :=
  InBounds c ∧ index2D grid c.y c.x = some 0

instance (grid : List (List Int)) (c : Coordinate) : Decidable (Free grid c) := by
  unfold Free; infer_instance

/-- Two coordinates are 4-adjacent: they differ by exactly 1 in exactly one of `x`, `y`
and are equal in the other. -/
def Adjacent (a b : Coordinate) : Prop :=
  (a.x = b.x ∧ (a.y = b.y + 1 ∨ b.y = a.y + 1)) ∨ (a.y = b.y ∧ (a.x = b.x + 1 ∨ b.x = a.x + 1))

instance (a b : Coordinate) : Decidable (Adjacent a b) := by
  unfold Adjacent; infer_instance

/-- The cell is marked in the `visited` table. -/
def visitedAt (tbl : List (List Bool)) (c : Coordinate) : Prop :=
  index2D tbl c.y c.x = some true

instance (tbl : List (List Bool)) (c : Coordinate) : Decidable (visitedAt tbl c) := by
  unfold visitedAt; infer_instance

/-- A 4-directional route through free cells: a non-empty sequence of free cells in
which consecutive cells are 4-adjacent. -/
def IsRoute (grid : List (List Int)) (r : List Coordinate) : Prop :=
  r ≠ [] ∧ (∀ c ∈ r, Free grid c) ∧ List.Chain' Adjacent r

/-- A route that starts at `a` and ends at `b`. -/
def RouteFromTo (grid : List (List Int)) (a b : Coordinate) (r : List Coordinate) : Prop :=
  IsRoute grid r ∧ r.head? = some a ∧ r.getLast? = some b

/-- The node that the loop body creates for direction `d` from `current`. -/
def childNode (current : Node) (d : Int × Int) : Node :=
  Node.mk ⟨current.coordinates.x + d.1, current.coordinates.y + d.2⟩ (current.G + 1)
    (manhattanDistance ⟨current.coordinates.x + d.1, current.coordinates.y + d.2⟩ target)
    (some current)

/-- The test of the loop body on a candidate node: traversable and not yet visited. -/
def wanted (grid : List (List Int)) (visited : List (List Bool)) (n : Node) : Bool :=
  decide (Free grid n.coordinates) && !decide (visitedAt visited n.coordinates)

/-- The nodes pushed when `current` is expanded, in the order of the pushes. -/
def children (grid : List (List Int)) (visited : List (List Bool)) (current : Node) :
    List Node :=
  (directions.map (childNode current)).filter (wanted grid visited)

/-- Well-formedness of a node and of its chain of predecessors: the node without
predecessor is the start node; any other node lies on a free cell next to its
predecessor, costs one more, and its predecessor is not on the target. -/
def NodeWF (grid : List (List Int)) : Node → Prop
  | .mk c g h none => c = ⟨0, 0⟩ ∧ g = 0 ∧ h = manhattanDistance c target
  | .mk c g h (some p) =>
    Free grid c ∧ h = manhattanDistance c target ∧ g = p.G + 1 ∧
      Adjacent p.coordinates c ∧ p.coordinates ≠ target ∧ NodeWF grid p

/-- The invariant of the `while` loop used throughout. -/
structure Inv (grid : List (List Int)) (s : SearchState) : Prop where
  vis8 : Is8x8 s.visited
  heap : IsHeap Node.F s.openSet
  wf : ∀ n ∈ s.openSet, NodeWF grid n
  targetFresh : ¬ visitedAt s.visited target

/-- The states that the loop of `findShortestPath` goes through on `grid`. -/
inductive Reachable (grid : List (List Int)) : SearchState → Prop where
  | init : Reachable grid initialState
  | next {s s2 : SearchState} : Reachable grid s → step grid s = .next s2 → Reachable grid s2
/-- What an iteration that continues the loop did. -/
structure StepSpec (grid : List (List Int)) (s s2 : SearchState) (m : Node)
    (rest : List Node) : Prop where
  top : pqTop s.openSet = some m
  perm : s.openSet.Perm (m :: rest)
  min : ∀ n ∈ s.openSet, m.F ≤ n.F
  notTarget : m.coordinates ≠ target
  vis8 : Is8x8 s2.visited
  vis : ∀ c, visitedAt s2.visited c ↔ (c = m.coordinates ∨ visitedAt s.visited c)
  perm2 : s2.openSet.Perm (children grid s2.visited m ++ rest)
  heap2 : IsHeap Node.F s2.openSet


/-- The 64 cells of the grid. -/
def allCells : List Coordinate :=
  (List.range 8).flatMap (fun (y : Nat) =>
    (List.range 8).map (fun (x : Nat) => Coordinate.mk (Int.ofNat x) (Int.ofNat y)))

/-- Number of cells not yet marked in the `visited` table. -/
def unvisitedCount (tbl : List (List Bool)) : Nat :=
  allCells.countP (fun c => !decide (visitedAt tbl c))

/-- Weight of a frontier node in the termination measure: a node on a marked cell
outweighs four nodes on unmarked cells, and a node on an unmarked cell outweighs four
such nodes once one more cell is marked. -/
def weight (tbl : List (List Bool)) (n : Node) : Nat :=
  5 ^ (unvisitedCount tbl + if visitedAt tbl n.coordinates then 1 else 0)

/-- The termination measure of the `while` loop. -/
def potential (s : SearchState) : Nat :=
  (s.openSet.map (weight s.visited)).sum

/-- The cost bookkeeping behind optimality, for a record `gv` of the cost at which each
marked cell was first expanded: the start is marked at cost 0 or waits in the frontier
at cost 0; every free neighbour of a marked cell is marked at a cost at most one more,
or waits in the frontier at such a cost; and no frontier node has a priority below the
priority at which a marked cell was expanded. -/
structure OptInv (grid : List (List Int)) (s : SearchState) (gv : Coordinate → Int) :
    Prop where
  start : (visitedAt s.visited ⟨0, 0⟩ ∧ gv ⟨0, 0⟩ ≤ 0) ∨
    ∃ n ∈ s.openSet, n.coordinates = ⟨0, 0⟩ ∧ n.G ≤ 0
  edge : ∀ c c2, visitedAt s.visited c → Adjacent c c2 → Free grid c2 →
    (visitedAt s.visited c2 ∧ gv c2 ≤ gv c + 1) ∨
      ∃ n ∈ s.openSet, n.coordinates = c2 ∧ n.G ≤ gv c + 1
  low : ∀ c, visitedAt s.visited c → ∀ n ∈ s.openSet,
    gv c + manhattanDistance c target ≤ n.F

/-- Equality of nodes is decidable (fields and predecessor chains are compared). -/
def Node.decEq : (a b : Node) → Decidable (a = b)
  | .mk c1 g1 h1 none, .mk c2 g2 h2 none =>
    if h : c1 = c2 ∧ g1 = g2 ∧ h1 = h2 then
      isTrue (by obtain ⟨rfl, rfl, rfl⟩ := h; rfl)
    else isFalse (by intro e; injection e with e1 e2 e3 _; exact h ⟨e1, e2, e3⟩)
  | .mk c1 g1 h1 (some p1), .mk c2 g2 h2 (some p2) =>
    match Node.decEq p1 p2 with
    | isTrue hp =>
      if h : c1 = c2 ∧ g1 = g2 ∧ h1 = h2 then
        isTrue (by obtain ⟨rfl, rfl, rfl⟩ := h; rw [hp])
      else isFalse (by intro e; injection e with e1 e2 e3 _; exact h ⟨e1, e2, e3⟩)
    | isFalse hp =>
      isFalse (by intro e; injection e with _ _ _ e4; injection e4 with e5; exact hp e5)
  | .mk _ _ _ none, .mk _ _ _ (some _) =>
    isFalse (by intro e; injection e with _ _ _ e4; cases e4)
  | .mk _ _ _ (some _), .mk _ _ _ none =>
    isFalse (by intro e; injection e with _ _ _ e4; cases e4)

instance : DecidableEq Node := Node.decEq

/-- The state at the head of the loop `k` complete iterations after state `s`, if the
loop gets that far (`none` once it has returned). -/
def advance (grid : List (List Int)) : Nat → SearchState → Option SearchState
  | 0, s => some s
  | k + 1, s =>
    match step grid s with
    | .next s2 => advance grid k s2
    | _ => none

/-- The state at the head of the loop after `k` complete iterations of a call. -/
def stateAfter (grid : List (List Int)) (k : Nat) : Option SearchState :=
  advance grid k initialState

/-- The frontier at the head of the loop after `k` complete iterations (empty if the
loop has ended before). -/
def frontierAfter (grid : List (List Int)) (k : Nat) : List Node :=
  match stateAfter grid k with
  | none => []
  | some s => s.openSet

/-- The coordinates of the nodes popped and expanded in the first `k` iterations, in
the order of the expansions. -/
def expansions (grid : List (List Int)) : Nat → List Coordinate
  | 0 => []
  | k + 1 =>
    match stateAfter grid k with
    | none => expansions grid k
    | some s =>
      match pqTop s.openSet, step grid s with
      | some m, .next _ => expansions grid k ++ [m.coordinates]
      | _, _ => expansions grid k

/-- Earliest-inserted-wins tie-breaking on `grid`: when the node `m` is removed in
iteration `k + 1` and a frontier node `n` has the same priority, then `m` was in the
frontier at every earlier loop head `j` at which `n` was (so `m` was not inserted
after `n`).  Nodes are compared as values, predecessor chain included. -/
def StableTies (grid : List (List Int)) : Prop :=
  ∀ (k j : Nat) (m n : Node), j ≤ k → pqTop (frontierAfter grid k) = some m →
    n ∈ frontierAfter grid k → n.F = m.F → n ∈ frontierAfter grid j →
    m ∈ frontierAfter grid j

/-- The top-left 8x8 block of a grid. -/
def block8 (grid : List (List Int)) : List (List Int) :=
  (grid.take 8).map (List.take 8)

/-- The path printed by `main` for `mainGrid`. -/
def mainPath : List Coordinate :=
  [⟨0, 0⟩, ⟨0, 1⟩, ⟨0, 2⟩, ⟨0, 3⟩, ⟨0, 4⟩, ⟨1, 4⟩, ⟨2, 4⟩, ⟨2, 5⟩, ⟨2, 6⟩, ⟨2, 7⟩, ⟨3, 7⟩,
    ⟨4, 7⟩, ⟨5, 7⟩, ⟨6, 7⟩, ⟨7, 7⟩]

/-- A grid without obstacle except on the start cell. -/
def startBlockedGrid : List (List Int) :=
  [1, 0, 0, 0, 0, 0, 0, 0] :: List.replicate 7 (List.replicate 8 0)

/-- The grid of `main` with a ninth entry in its first row. -/
def raggedGrid : List (List Int) :=
  [ [0, 0, 0, 0, 0, 0, 0, 0, 0],
    [0, 0, 0, 0, 0, 0, 1, 0],
    [0, 0, 0, 1, 1, 1, 0, 0],
    [0, 0, 1, 1, 1, 1, 0, 0],
    [0, 0, 0, 1, 1, 1, 0, 0],
    [0, 0, 0, 0, 1, 1, 0, 0],
    [0, 0, 0, 0, 0, 0, 0, 0],
    [0, 0, 0, 0, 0, 0, 0, 0] ]

/-- A grid whose row 1 is a wall: no route leads from the start to the target. -/
def wallGrid : List (List Int) :=
  [List.replicate 8 0, List.replicate 8 1] ++ List.replicate 6 (List.replicate 8 0)

/-- A grid whose only free cells are the top row and the right column. -/
def corridorGrid : List (List Int) :=
  [ [0, 0, 0, 0, 0, 0, 0, 0],
    [1, 1, 1, 1, 1, 1, 1, 0],
    [1, 1, 1, 1, 1, 1, 1, 0],
    [1, 1, 1, 1, 1, 1, 1, 0],
    [1, 1, 1, 1, 1, 1, 1, 0],
    [1, 1, 1, 1, 1, 1, 1, 0],
    [1, 1, 1, 1, 1, 1, 1, 0],
    [1, 1, 1, 1, 1, 1, 1, 0] ]

/-- The path along the corridor of `corridorGrid`. -/
def corridorPath : List Coordinate :=
  [⟨0, 0⟩, ⟨1, 0⟩, ⟨2, 0⟩, ⟨3, 0⟩, ⟨4, 0⟩, ⟨5, 0⟩, ⟨6, 0⟩, ⟨7, 0⟩, ⟨7, 1⟩, ⟨7, 2⟩, ⟨7, 3⟩,
    ⟨7, 4⟩, ⟨7, 5⟩, ⟨7, 6⟩, ⟨7, 7⟩]

/-- The node of cell (1, 1) created in iteration 2 of a search, when (1, 0) is expanded. -/
def olderNode : Node := childNode (childNode startNode (1, 0)) (0, 1)

/-- The node of cell (1, 1) created in iteration 3 of a search, when (0, 1) is expanded. -/
def newerNode : Node := childNode (childNode startNode (0, 1)) (1, 0)

/-- The `visited` table at the head of the loop after `k` complete iterations (empty if
the loop has ended before). -/
def visitedAfter (grid : List (List Int)) (k : Nat) : List (List Bool) :=
  match stateAfter grid k with
  | none => []
  | some s => s.visited

/-- Iteration `k + 1` pops a node whose cell is already marked in `visited` and still
inserts nodes: the frontier after the iteration is longer than the frontier left by
the pop. -/
def revisitAt (grid : List (List Int)) (k : Nat) : Bool :=
  match stateAfter grid k with
  | none => false
  | some s =>
    match pqTop s.openSet with
    | none => false
    | some m =>
      decide (visitedAt s.visited m.coordinates) &&
        decide ((pqPop nodeComp s.openSet).length < (frontierAfter grid (k + 1)).length)

/-- A grid without obstacle except on the target cell. -/
def goalBlockedGrid : List (List Int) :=
  List.replicate 7 (List.replicate 8 0) ++ [[0, 0, 0, 0, 0, 0, 0, 1]]

/-- The path found on `startBlockedGrid`. -/
def startBlockedPath : List Coordinate :=
  [⟨0, 0⟩, ⟨1, 0⟩, ⟨2, 0⟩, ⟨2, 1⟩, ⟨3, 1⟩, ⟨3, 2⟩, ⟨3, 3⟩, ⟨3, 4⟩, ⟨3, 5⟩, ⟨4, 5⟩, ⟨4, 6⟩,
    ⟨4, 7⟩, ⟨5, 7⟩, ⟨6, 7⟩, ⟨7, 7⟩]

/-- The node itself followed by its predecessors, from the node back to the node
without predecessor. -/
def Node.ancestors : Node → List Node
  | .mk c g h none => [.mk c g h none]
  | .mk c g h (some p) => .mk c g h (some p) :: p.ancestors

/-- Shape of a node and of its chain of predecessors, whatever the grid: the node
without predecessor is the start node; any other node costs one more than its
predecessor and lies next to it. -/
def NodeShape : Node → Prop
  | .mk c g h none => c = ⟨0, 0⟩ ∧ g = 0 ∧ h = manhattanDistance c target
  | .mk c g _ (some p) => g = p.G + 1 ∧ Adjacent p.coordinates c ∧ NodeShape p

/-- Invariant of the loop on predecessor chains: the chain of every frontier node passes
through pairwise different cells, and the cells of its proper predecessors are marked
in `visited`. -/
def ChainInv (s : SearchState) : Prop :=
  ∀ n ∈ s.openSet, n.chain.Nodup ∧
    ∀ p, n.parent = some p → ∀ c ∈ p.chain, visitedAt s.visited c

/-- Follows the words of the specification of the expansion step: the candidate
neighbours of the expanded node `m` at `(x, y)` are, in this order, `(x, y-1)` (up),
`(x+1, y)` (right), `(x, y+1)` (down), `(x-1, y)` (left), each with cost `G + 1`, the
Manhattan distance to (7,7) as heuristic and `m` as predecessor; those inside the 8x8
bounds, of grid value 0 and not marked in `visited` are inserted. -/
def expectedInsertions (grid : List (List Int)) (visited : List (List Bool)) (m : Node) :
    List Node :=
  [ Node.mk ⟨m.coordinates.x, m.coordinates.y - 1⟩ (m.G + 1)
      (manhattanDistance ⟨m.coordinates.x, m.coordinates.y - 1⟩ ⟨7, 7⟩) (some m),
    Node.mk ⟨m.coordinates.x + 1, m.coordinates.y⟩ (m.G + 1)
      (manhattanDistance ⟨m.coordinates.x + 1, m.coordinates.y⟩ ⟨7, 7⟩) (some m),
    Node.mk ⟨m.coordinates.x, m.coordinates.y + 1⟩ (m.G + 1)
      (manhattanDistance ⟨m.coordinates.x, m.coordinates.y + 1⟩ ⟨7, 7⟩) (some m),
    Node.mk ⟨m.coordinates.x - 1, m.coordinates.y⟩ (m.G + 1)
      (manhattanDistance ⟨m.coordinates.x - 1, m.coordinates.y⟩ ⟨7, 7⟩) (some m) ].filter
    (fun n => decide (0 ≤ n.coordinates.x ∧ n.coordinates.x < 8 ∧ 0 ≤ n.coordinates.y ∧
      n.coordinates.y < 8 ∧ index2D grid n.coordinates.y n.coordinates.x = some 0 ∧
      ¬ visitedAt visited n.coordinates))

/-! ## The binary heap: permutation and order -/

theorem count_set_add {α : Type} [DecidableEq α] (l : List α) (i : Nat) (v old x : α)
    (h : l[i]? = some old) :
    (l.set i v).count x + (if old = x then 1 else 0) = l.count x + (if v = x then 1 else 0) := by
  induction l generalizing i with
  | nil => simp at h
  | cons a t ih =>
    cases i with
    | zero =>
      simp at h
      subst h
      simp [List.count_cons]
      omega
    | succ k =>
      simp at h
      have := ih k h
      simp [List.count_cons]
      omega

theorem set_swap_perm {α : Type} (l : List α) (i j : Nat) (v p : α) (hij : i ≠ j)
    (hi : i < l.length) (hj : l[j]? = some p) :
    ((l.set i p).set j v).Perm (l.set i v) := by
  classical
  rw [List.perm_iff_count]
  intro x
  obtain ⟨old, hold⟩ : ∃ old, l[i]? = some old := ⟨l[i], by simp [hi]⟩
  have h1 := count_set_add l i p old x hold
  have h2 := count_set_add l i v old x hold
  have h3 := count_set_add (l.set i p) j v p x (by rw [List.getElem?_set_ne hij]; exact hj)
  omega

theorem pushHeapLoop_perm {α : Type} (comp : α → α → Bool) (value : α) :
    ∀ (fuel : Nat) (first : List α) (holeIndex : Nat), holeIndex < first.length →
      (pushHeapLoop comp value 0 fuel first holeIndex).Perm (first.set holeIndex value) := by
  intro fuel
  induction fuel with
  | zero => intro first holeIndex _; exact List.Perm.refl _
  | succ k ih =>
    intro first holeIndex hlt
    unfold pushHeapLoop
    simp only []
    cases hp : first[(holeIndex - 1) / 2]? with
    | none => exact List.Perm.refl _
    | some p =>
      simp only []
      split
      · rename_i hc
        simp only [Bool.and_eq_true, decide_eq_true_eq] at hc
        have hne : holeIndex ≠ (holeIndex - 1) / 2 := by omega
        have hlt2 : (holeIndex - 1) / 2 < (first.set holeIndex p).length := by
          rw [List.length_set]; omega
        exact (ih _ _ hlt2).trans (set_swap_perm first holeIndex _ value p hne hlt hp)
      · exact List.Perm.refl _

theorem pushHeapLoop_length {α : Type} (comp : α → α → Bool) (value : α) :
    ∀ (fuel : Nat) (first : List α) (holeIndex : Nat),
      (pushHeapLoop comp value 0 fuel first holeIndex).length = first.length := by
  intro fuel
  induction fuel with
  | zero => intro first holeIndex; simp [pushHeapLoop]
  | succ k ih =>
    intro first holeIndex
    unfold pushHeapLoop
    simp only []
    cases hp : first[(holeIndex - 1) / 2]? with
    | none => simp
    | some p =>
      simp only []
      split
      · rw [ih]; simp
      · simp

theorem adjustHeapLoop_spec {α : Type} (comp : α → α → Bool) (len : Nat) (value : α) :
    ∀ (fuel : Nat) (first : List α) (holeIndex : Nat), holeIndex < first.length →
      (adjustHeapLoop comp len fuel first holeIndex).1.length = first.length ∧
      (adjustHeapLoop comp len fuel first holeIndex).2 < first.length ∧
      ((adjustHeapLoop comp len fuel first holeIndex).1.set
        (adjustHeapLoop comp len fuel first holeIndex).2 value).Perm (first.set holeIndex value) := by
  intro fuel
  induction fuel with
  | zero => intro first holeIndex h; exact ⟨rfl, h, List.Perm.refl _⟩
  | succ k ih =>
    intro first holeIndex hlt
    unfold adjustHeapLoop
    split
    · simp only []
      split
      · rename_i r l hr hl
        have hrlt : 2 * (holeIndex + 1) < first.length := by
          by_contra hcon
          rw [List.getElem?_eq_none (by omega)] at hr
          exact absurd hr (by simp)
        split
        · have h1 : 2 * (holeIndex + 1) - 1 < (first.set holeIndex l).length := by
            rw [List.length_set]; omega
          obtain ⟨a, b, c⟩ := ih (first.set holeIndex l) (2 * (holeIndex + 1) - 1) h1
          rw [List.length_set] at a b
          refine ⟨a, b, c.trans ?_⟩
          exact set_swap_perm first holeIndex _ value l (by omega) hlt hl
        · have h1 : 2 * (holeIndex + 1) < (first.set holeIndex r).length := by
            rw [List.length_set]; omega
          obtain ⟨a, b, c⟩ := ih (first.set holeIndex r) (2 * (holeIndex + 1)) h1
          rw [List.length_set] at a b
          refine ⟨a, b, c.trans ?_⟩
          exact set_swap_perm first holeIndex _ value r (by omega) hlt hr
      · exact ⟨rfl, hlt, List.Perm.refl _⟩
    · exact ⟨rfl, hlt, List.Perm.refl _⟩

theorem adjustHeap_perm {α : Type} (comp : α → α → Bool) (first : List α) (len : Nat)
    (value : α) (h0 : 0 < first.length) :
    (adjustHeap comp first 0 len value).Perm (first.set 0 value) := by
  unfold adjustHeap
  simp only []
  obtain ⟨a, b, c⟩ := adjustHeapLoop_spec comp len value len first 0 h0
  generalize adjustHeapLoop comp len len first 0 = r at a b c ⊢
  split
  · cases hc : r.1[2 * (r.2 + 1) - 1]? with
    | none => exact (pushHeapLoop_perm comp value len r.1 r.2 (by omega)).trans c
    | some ch =>
      simp only []
      have hlt : 2 * (r.2 + 1) - 1 < r.1.length := by
        by_contra hcon
        rw [List.getElem?_eq_none (by omega)] at hc
        exact absurd hc (by simp)
      refine (pushHeapLoop_perm comp value len _ _ (by rw [List.length_set]; exact hlt)).trans ?_
      exact (set_swap_perm r.1 r.2 _ value ch (by omega) (by omega) hc).trans c
  · exact (pushHeapLoop_perm comp value len r.1 r.2 (by omega)).trans c

theorem pqPush_perm {α : Type} (comp : α → α → Bool) (c : List α) (x : α) :
    (pqPush comp c x).Perm (x :: c) := by
  unfold pqPush
  refine (pushHeapLoop_perm comp x _ _ _ (by simp)).trans ?_
  have : (c ++ [x]).set c.length x = c ++ [x] := by
    simp
  rw [this]
  exact List.perm_append_singleton x c

theorem pqPop_perm {α : Type} (comp : α → α → Bool) (t : α) (c : List α) :
    (t :: pqPop comp (t :: c)).Perm (t :: c) := by
  unfold pqPop
  cases hl : (t :: c).getLast? with
  | none => simp at hl
  | some value =>
    simp only []
    have hd : (t :: c).dropLast ++ [value] = t :: c := by
      have := List.dropLast_append_getLast? value (by simpa using hl)
      exact this
    split
    · rename_i hlen
      cases c with
      | nil => simp at hlen
      | cons b c2 =>
        have hdl : (t :: b :: c2).dropLast = t :: (b :: c2).dropLast := by simp [List.dropLast]
        rw [hdl] at hd ⊢
        have h1 := adjustHeap_perm comp (t :: (b :: c2).dropLast) ((t :: b :: c2).length - 1) value
          (by simp)
        simp only [List.set_cons_zero] at h1
        have h2 : (t :: adjustHeap comp (t :: (b :: c2).dropLast) 0 ((t :: b :: c2).length - 1) value).Perm
            (t :: value :: (b :: c2).dropLast) := List.Perm.cons t h1
        refine h2.trans ?_
        have h3 : (t :: value :: (b :: c2).dropLast).Perm (t :: ((b :: c2).dropLast ++ [value])) :=
          List.Perm.cons t (List.perm_append_singleton value _).symm
        refine h3.trans ?_
        rw [← List.cons_append, hd]
    · rename_i hlen
      cases c with
      | nil => simp
      | cons b c2 => simp at hlen

theorem IsHeap.top_le {α : Type} {key : α → Int} {a : List α} (h : IsHeap key a) :
    ∀ (i : Nat) (t c : α), a[0]? = some t → a[i]? = some c → key t ≤ key c := by
  intro i
  induction i using Nat.strong_induction_on with
  | _ i ih =>
    intro t c ht hc
    by_cases hi : i = 0
    · subst hi
      rw [ht] at hc
      cases hc
      exact le_refl _
    · have hil : i < a.length := (List.getElem?_eq_some.mp hc).1
      have hpl : (i - 1) / 2 < a.length := by omega
      have hp : a[(i - 1) / 2]? = some a[(i - 1) / 2] := List.getElem?_eq_getElem hpl
      have h1 := ih ((i - 1) / 2) (by omega) t _ ht hp
      have h2 := h i _ c (by omega) hp hc
      exact le_trans h1 h2

/-- Storing `value` in the hole gives a heap when the parent of the hole is not above
`value`, `value` is not above the children of the hole and the rest is in heap order. -/
theorem set_hole_heap {α : Type} (key : α → Int) (value : α) (first : List α) (hole : Nat)
    (hlt : hole < first.length)
    (I1 : ∀ i p c, 0 < i → i ≠ hole → (i - 1) / 2 ≠ hole → first[(i - 1) / 2]? = some p →
      first[i]? = some c → key p ≤ key c)
    (I2 : ∀ i c, 0 < i → (i - 1) / 2 = hole → first[i]? = some c → key value ≤ key c)
    (I4 : ∀ p, 0 < hole → first[(hole - 1) / 2]? = some p → key p ≤ key value) :
    IsHeap key (first.set hole value) := by
  intro i p c hi hp hc
  by_cases h1 : i = hole
  · subst h1
    rw [List.getElem?_set_self hlt] at hc
    cases hc
    rw [List.getElem?_set_ne (by omega)] at hp
    exact I4 p hi hp
  · rw [List.getElem?_set_ne (Ne.symm h1)] at hc
    by_cases h2 : (i - 1) / 2 = hole
    · rw [h2, List.getElem?_set_self hlt] at hp
      cases hp
      exact I2 i c hi h2 hc
    · rw [List.getElem?_set_ne (Ne.symm h2)] at hp
      exact I1 i p c hi h1 h2 hp hc

theorem pushHeapLoop_heap {α : Type} (key : α → Int) (comp : α → α → Bool)
    (hcomp : ∀ a b, comp a b = decide (key a > key b)) (value : α) :
    ∀ (fuel : Nat) (first : List α) (hole : Nat), hole < first.length → hole ≤ fuel →
      (∀ i p c, 0 < i → i ≠ hole → (i - 1) / 2 ≠ hole → first[(i - 1) / 2]? = some p →
        first[i]? = some c → key p ≤ key c) →
      (∀ i c, 0 < i → (i - 1) / 2 = hole → first[i]? = some c → key value ≤ key c) →
      (∀ i p c, 0 < i → (i - 1) / 2 = hole → 0 < hole → first[(hole - 1) / 2]? = some p →
        first[i]? = some c → key p ≤ key c) →
      IsHeap key (pushHeapLoop comp value 0 fuel first hole) := by
  intro fuel
  induction fuel with
  | zero =>
    intro first hole hlt hf I1 I2 _
    exact set_hole_heap key value first hole hlt I1 I2 (fun p h0 _ => by omega)
  | succ k ih =>
    intro first hole hlt hf I1 I2 I3
    unfold pushHeapLoop
    simp only []
    cases hp : first[(hole - 1) / 2]? with
    | none =>
      exact set_hole_heap key value first hole hlt I1 I2 (fun p _ h => by simp [hp] at h)
    | some p =>
      simp only []
      split
      · rename_i hc
        simp only [Bool.and_eq_true, decide_eq_true_eq, hcomp] at hc
        obtain ⟨h0, hgt⟩ := hc
        have hne : (hole - 1) / 2 ≠ hole := by omega
        apply ih
        · rw [List.length_set]; omega
        · omega
        · -- heap order away from the new hole
          intro i q c hi hi1 hi2 hq hcc
          have hih : i ≠ hole := fun h => hi2 (by rw [h])
          rw [List.getElem?_set_ne (Ne.symm hih)] at hcc
          by_cases hph : (i - 1) / 2 = hole
          · rw [hph, List.getElem?_set_self hlt] at hq
            cases hq
            exact I3 i _ c hi hph h0 hp hcc
          · rw [List.getElem?_set_ne (Ne.symm hph)] at hq
            exact I1 i q c hi hih hph hq hcc
        · -- `value` is below the children of the new hole
          intro i c hi hi1 hcc
          by_cases hih : i = hole
          · subst hih
            rw [List.getElem?_set_self hlt] at hcc
            cases hcc
            omega
          · rw [List.getElem?_set_ne (Ne.symm hih)] at hcc
            have := I1 i p c hi hih (by omega) (by rw [hi1]; exact hp) hcc
            omega
        · -- the grandparent is below the children of the new hole
          intro i q c hi hi1 hpar hq hcc
          have hgne : ((hole - 1) / 2 - 1) / 2 ≠ hole := by omega
          rw [List.getElem?_set_ne (Ne.symm hgne)] at hq
          have hqp : key q ≤ key p :=
            I1 ((hole - 1) / 2) q p hpar hne (by omega) hq hp
          by_cases hih : i = hole
          · subst hih
            rw [List.getElem?_set_self hlt] at hcc
            cases hcc
            exact hqp
          · rw [List.getElem?_set_ne (Ne.symm hih)] at hcc
            have := I1 i p c hi hih (by omega) (by rw [hi1]; exact hp) hcc
            omega
      · rename_i hc
        simp only [Bool.and_eq_true, decide_eq_true_eq, hcomp, not_and, not_lt] at hc
        refine set_hole_heap key value first hole hlt I1 I2 ?_
        intro q h0 hq
        rw [hp] at hq
        cases hq
        exact hc h0

/-- Pushing up from a hole that has no child keeps the heap order. -/
theorem pushHeapLoop_leaf_heap {α : Type} (key : α → Int) (comp : α → α → Bool)
    (hcomp : ∀ a b, comp a b = decide (key a > key b)) (value : α) (fuel : Nat)
    (first : List α) (hole : Nat) (hlt : hole < first.length) (hf : hole ≤ fuel)
    (hleaf : first.length ≤ 2 * hole + 1)
    (I1 : ∀ i p c, 0 < i → i ≠ hole → first[(i - 1) / 2]? = some p → first[i]? = some c →
      key p ≤ key c) :
    IsHeap key (pushHeapLoop comp value 0 fuel first hole) := by
  apply pushHeapLoop_heap key comp hcomp value fuel first hole hlt hf
  · intro i p c hi h1 _ hp hc
    exact I1 i p c hi h1 hp hc
  · intro i c hi hpar hc
    have := (List.getElem?_eq_some.mp hc).1
    omega
  · intro i p c hi hpar _ _ hc
    have := (List.getElem?_eq_some.mp hc).1
    omega

theorem adjustHeapLoop_heap {α : Type} (key : α → Int) (comp : α → α → Bool)
    (hcomp : ∀ a b, comp a b = decide (key a > key b)) (len : Nat) :
    ∀ (fuel : Nat) (first : List α) (hole : Nat), first.length = len → hole < len →
      len ≤ hole + fuel → IsHeap key first →
      IsHeap key (adjustHeapLoop comp len fuel first hole).1 ∧
      ¬ ((adjustHeapLoop comp len fuel first hole).2 < (len - 1) / 2) := by
  intro fuel
  induction fuel with
  | zero =>
    intro first hole _ hlt hf hh
    exact ⟨hh, by simp only [adjustHeapLoop]; omega⟩
  | succ k ih =>
    intro first hole hlen hlt hf hh
    unfold adjustHeapLoop
    split
    · rename_i hcond
      simp only []
      have hrl : 2 * (hole + 1) < first.length := by omega
      have hll : 2 * (hole + 1) - 1 < first.length := by omega
      have hhl : hole < first.length := by omega
      rw [List.getElem?_eq_getElem hrl, List.getElem?_eq_getElem hll]
      simp only []
      have hr := List.getElem?_eq_getElem hrl
      have hl := List.getElem?_eq_getElem hll
      have hh0 := List.getElem?_eq_getElem hhl
      have hlr : key first[hole] ≤ key first[2 * (hole + 1)] :=
        hh (2 * (hole + 1)) _ _ (by omega)
          (by rw [show (2 * (hole + 1) - 1) / 2 = hole by omega]; exact hh0) hr
      have hll2 : key first[hole] ≤ key first[2 * (hole + 1) - 1] :=
        hh (2 * (hole + 1) - 1) _ _ (by omega)
          (by rw [show (2 * (hole + 1) - 1 - 1) / 2 = hole by omega]; exact hh0) hl
      split
      · rename_i hc
        simp only [hcomp, decide_eq_true_eq] at hc
        apply ih
        · rw [List.length_set]; exact hlen
        · omega
        · omega
        · intro i p c hi hp hcc
          by_cases h1 : i = hole
          · subst h1
            rw [List.getElem?_set_self hhl] at hcc
            cases hcc
            rw [List.getElem?_set_ne (by omega)] at hp
            have := hh i p _ hi hp hh0
            omega
          · rw [List.getElem?_set_ne (Ne.symm h1)] at hcc
            by_cases h2 : (i - 1) / 2 = hole
            · rw [h2, List.getElem?_set_self hhl] at hp
              cases hp
              have hi2 : i = 2 * (hole + 1) - 1 ∨ i = 2 * (hole + 1) := by omega
              rcases hi2 with hi2 | hi2
              · subst hi2
                rw [hl] at hcc
                cases hcc
                exact le_refl _
              · subst hi2
                rw [hr] at hcc
                cases hcc
                omega
            · rw [List.getElem?_set_ne (Ne.symm h2)] at hp
              exact hh i p c hi hp hcc
      · rename_i hc
        simp only [hcomp, decide_eq_true_eq, not_lt] at hc
        apply ih
        · rw [List.length_set]; exact hlen
        · omega
        · omega
        · intro i p c hi hp hcc
          by_cases h1 : i = hole
          · subst h1
            rw [List.getElem?_set_self hhl] at hcc
            cases hcc
            rw [List.getElem?_set_ne (by omega)] at hp
            have := hh i p _ hi hp hh0
            omega
          · rw [List.getElem?_set_ne (Ne.symm h1)] at hcc
            by_cases h2 : (i - 1) / 2 = hole
            · rw [h2, List.getElem?_set_self hhl] at hp
              cases hp
              have hi2 : i = 2 * (hole + 1) - 1 ∨ i = 2 * (hole + 1) := by omega
              rcases hi2 with hi2 | hi2
              · subst hi2
                rw [hl] at hcc
                cases hcc
                omega
              · subst hi2
                rw [hr] at hcc
                cases hcc
                exact le_refl _
            · rw [List.getElem?_set_ne (Ne.symm h2)] at hp
              exact hh i p c hi hp hcc
    · rename_i hcond
      exact ⟨hh, hcond⟩

theorem adjustHeap_heap {α : Type} (key : α → Int) (comp : α → α → Bool)
    (hcomp : ∀ a b, comp a b = decide (key a > key b)) (first : List α) (value : α)
    (h0 : 0 < first.length) (hh : IsHeap key first) :
    IsHeap key (adjustHeap comp first 0 first.length value) := by
  unfold adjustHeap
  simp only []
  obtain ⟨a, b, -⟩ := adjustHeapLoop_spec comp first.length value first.length first 0 h0
  obtain ⟨c, d⟩ := adjustHeapLoop_heap key comp hcomp first.length first.length first 0 rfl h0
    (by omega) hh
  generalize adjustHeapLoop comp first.length first.length first 0 = r at a b c d ⊢
  split
  · rename_i hcond
    have hlt : 2 * (r.2 + 1) - 1 < r.1.length := by omega
    rw [List.getElem?_eq_getElem hlt]
    simp only []
    apply pushHeapLoop_leaf_heap key comp hcomp
    · rw [List.length_set]; exact hlt
    · omega
    · rw [List.length_set]; omega
    · intro i p cc hi hne hp hcc
      have hch := List.getElem?_eq_getElem hlt
      have hrl : r.2 < r.1.length := by omega
      have hh0 := List.getElem?_eq_getElem hrl
      have hle : key r.1[r.2] ≤ key r.1[2 * (r.2 + 1) - 1] :=
        c (2 * (r.2 + 1) - 1) _ _ (by omega)
          (by rw [show (2 * (r.2 + 1) - 1 - 1) / 2 = r.2 by omega]; exact hh0) hch
      have hil : i < r.1.length := by
        have := (List.getElem?_eq_some.mp hcc).1
        rw [List.length_set] at this
        exact this
      by_cases h1 : i = r.2
      · subst h1
        rw [List.getElem?_set_self hrl] at hcc
        cases hcc
        rw [List.getElem?_set_ne (by omega)] at hp
        have := c r.2 p _ hi hp hh0
        omega
      · rw [List.getElem?_set_ne (Ne.symm h1)] at hcc
        by_cases h2 : (i - 1) / 2 = r.2
        · omega
        · rw [List.getElem?_set_ne (Ne.symm h2)] at hp
          exact c i p cc hi hp hcc
  · rename_i hcond
    apply pushHeapLoop_leaf_heap key comp hcomp
    · omega
    · omega
    · omega
    · intro i p cc hi _ hp hcc
      exact c i p cc hi hp hcc

theorem pqPush_heap {α : Type} (key : α → Int) (comp : α → α → Bool)
    (hcomp : ∀ a b, comp a b = decide (key a > key b)) (c : List α) (x : α)
    (hh : IsHeap key c) : IsHeap key (pqPush comp c x) := by
  unfold pqPush
  apply pushHeapLoop_leaf_heap key comp hcomp
  · simp
  · omega
  · simp; omega
  · intro i p cc hi hne hp hcc
    have hil : i < (c ++ [x]).length := (List.getElem?_eq_some.mp hcc).1
    simp at hil
    have hic : i < c.length := by omega
    rw [List.getElem?_append_left hic] at hcc
    rw [List.getElem?_append_left (by omega)] at hp
    exact hh i p cc hi hp hcc

theorem IsHeap.dropLast {α : Type} {key : α → Int} {a : List α} (h : IsHeap key a) :
    IsHeap key a.dropLast := by
  intro i p c hi hp hc
  rw [List.getElem?_dropLast] at hp hc
  split at hc
  · split at hp
    · exact h i p c hi hp hc
    · simp at hp
  · simp at hc

theorem pqPop_heap {α : Type} (key : α → Int) (comp : α → α → Bool)
    (hcomp : ∀ a b, comp a b = decide (key a > key b)) (c : List α)
    (hh : IsHeap key c) : IsHeap key (pqPop comp c) := by
  unfold pqPop
  cases hl : c.getLast? with
  | none => intro i p cc _ _ h; simp at h
  | some value =>
    simp only []
    split
    · rename_i hlen
      have hlen2 : c.length - 1 = c.dropLast.length := by simp
      rw [hlen2]
      exact adjustHeap_heap key comp hcomp c.dropLast value (by simp; omega) hh.dropLast
    · exact hh.dropLast

/-! ## Tables -/

theorem index2D_some_of_inBounds {α : Type} (tbl : List (List α)) (h8 : Is8x8 tbl)
    (c : Coordinate) (hc : InBounds c) : ∃ v, index2D tbl c.y c.x = some v := by
  obtain ⟨h0, h1, h2, h3⟩ := hc
  unfold index2D
  rw [if_neg (by omega)]
  have hy : c.y.toNat < tbl.length := by rw [h8.1]; omega
  rw [List.getElem?_eq_getElem hy]
  simp only []
  have hrow : tbl[c.y.toNat].length = 8 := h8.2 _ (List.getElem_mem _)
  have hx : c.x.toNat < tbl[c.y.toNat].length := by rw [hrow]; omega
  exact ⟨_, List.getElem?_eq_getElem hx⟩

theorem set2D_spec {α : Type} (tbl : List (List α)) (h8 : Is8x8 tbl) (c : Coordinate)
    (hc : InBounds c) (v : α) :
    ∃ tbl2, set2D tbl c.y c.x v = some tbl2 ∧ Is8x8 tbl2 ∧
      ∀ d : Coordinate, index2D tbl2 d.y d.x = if d = c then some v else index2D tbl d.y d.x := by
  obtain ⟨h0, h1, h2, h3⟩ := hc
  have hy : c.y.toNat < tbl.length := by rw [h8.1]; omega
  have hrow : tbl[c.y.toNat].length = 8 := h8.2 _ (List.getElem_mem _)
  have hx : c.x.toNat < tbl[c.y.toNat].length := by rw [hrow]; omega
  refine ⟨tbl.set c.y.toNat (tbl[c.y.toNat].set c.x.toNat v), ?_, ?_, ?_⟩
  · unfold set2D
    rw [if_neg (by omega), List.getElem?_eq_getElem hy]
    simp only []
    rw [if_pos hx]
  · refine ⟨by rw [List.length_set]; exact h8.1, ?_⟩
    intro row hrow2
    rcases List.mem_or_eq_of_mem_set hrow2 with h | h
    · exact h8.2 row h
    · rw [h, List.length_set]; exact hrow
  · intro d
    unfold index2D
    by_cases hneg : d.y < 0 ∨ d.x < 0
    · rw [if_pos hneg, if_pos hneg]
      rw [if_neg]
      intro hdc
      rw [hdc] at hneg
      omega
    · rw [if_neg hneg, if_neg hneg]
      by_cases hyy : c.y.toNat = d.y.toNat
      · rw [← hyy, List.getElem?_set_self hy, List.getElem?_eq_getElem hy]
        simp only []
        by_cases hxx : c.x.toNat = d.x.toNat
        · rw [← hxx, List.getElem?_set_self hx]
          rw [if_pos]
          cases d; cases c
          simp only [Coordinate.mk.injEq] at *
          omega
        · rw [List.getElem?_set_ne hxx, if_neg]
          intro hdc
          rw [hdc] at hxx
          exact hxx rfl
      · rw [List.getElem?_set_ne hyy, if_neg]
        intro hdc
        rw [hdc] at hyy
        exact hyy rfl

theorem visitedAt_set2D (tbl tbl2 : List (List Bool)) (h8 : Is8x8 tbl) (c : Coordinate)
    (hc : InBounds c) (h : set2D tbl c.y c.x true = some tbl2) :
    Is8x8 tbl2 ∧ ∀ d, visitedAt tbl2 d ↔ (d = c ∨ visitedAt tbl d) := by
  obtain ⟨t, h1, h2, h3⟩ := set2D_spec tbl h8 c hc true
  rw [h1] at h
  cases h
  refine ⟨h2, ?_⟩
  intro d
  unfold visitedAt
  rw [h3 d]
  by_cases hd : d = c
  · simp [hd]
  · simp [hd]

theorem is8x8_initial_visited : Is8x8 initialState.visited := by
  decide

theorem not_visitedAt_initial (c : Coordinate) : ¬ visitedAt initialState.visited c := by
  unfold visitedAt index2D initialState
  simp only []
  split
  · simp
  · rw [List.getElem?_replicate]
    by_cases hy : c.y.toNat < 8
    · rw [if_pos hy]
      simp only []
      rw [List.getElem?_replicate]
      split <;> simp
    · rw [if_neg hy]
      simp

/-! ## The loop body -/

theorem isTraversable_eq (grid : List (List Int)) (h8 : Is8x8 grid) (x y : Int) :
    isTraversable grid x y = some (decide (Free grid ⟨x, y⟩)) := by
  unfold isTraversable
  by_cases hv : isValidCoordinate x y = true
  · rw [if_pos hv]
    have hb : InBounds ⟨x, y⟩ := by
      simp only [isValidCoordinate, gridSize, Bool.and_eq_true, decide_eq_true_eq] at hv
      exact ⟨hv.1.1.1, hv.1.1.2, hv.1.2, hv.2⟩
    obtain ⟨v, hvv⟩ := index2D_some_of_inBounds grid h8 ⟨x, y⟩ hb
    simp only [] at hvv
    rw [hvv]
    simp only [Free, hb, hvv, true_and, Option.some.injEq]
    by_cases h0 : v = 0 <;> simp [h0]
  · rw [if_neg hv]
    have hb : ¬ InBounds ⟨x, y⟩ := by
      intro hb
      apply hv
      obtain ⟨a, b, c, d⟩ := hb
      simp only [] at a b c d
      simp [isValidCoordinate, gridSize, a, b, c, d]
    simp [Free, hb]

theorem directions_eq : directions = [(0, -1), (1, 0), (0, 1), (-1, 0)] := rfl

theorem childNode_coordinates (current : Node) (d : Int × Int) :
    (childNode current d).coordinates =
      ⟨current.coordinates.x + d.1, current.coordinates.y + d.2⟩ := rfl

theorem childNode_G (current : Node) (d : Int × Int) :
    (childNode current d).G = current.G + 1 := rfl

theorem childNode_H (current : Node) (d : Int × Int) :
    (childNode current d).H = manhattanDistance (childNode current d).coordinates target := rfl

theorem exploreStep_eq (grid : List (List Int)) (visited : List (List Bool))
    (h8 : Is8x8 grid) (hv8 : Is8x8 visited) (current : Node) (os : List Node)
    (d : Int × Int) :
    exploreStep grid visited current (some os) d =
      some (if wanted grid visited (childNode current d) = true
        then pqPush nodeComp os (childNode current d) else os) := by
  unfold exploreStep
  simp only []
  rw [isTraversable_eq grid h8]
  by_cases hf : Free grid ⟨current.coordinates.x + d.1, current.coordinates.y + d.2⟩
  · have hw : decide (Free grid ⟨current.coordinates.x + d.1, current.coordinates.y + d.2⟩)
        = true := by simp [hf]
    rw [hw]
    simp only []
    obtain ⟨b, hb⟩ := index2D_some_of_inBounds visited hv8 _ hf.1
    simp only [] at hb
    rw [hb]
    cases b with
    | true =>
      simp only []
      rw [if_neg]
      simp [wanted, childNode_coordinates, visitedAt, hb]
    | false =>
      simp only []
      rw [if_pos]
      · rfl
      · simp [wanted, childNode_coordinates, visitedAt, hb, hf]
  · have hw : decide (Free grid ⟨current.coordinates.x + d.1, current.coordinates.y + d.2⟩)
        = false := by simp [hf]
    rw [hw]
    simp only []
    rw [if_neg]
    simp [wanted, childNode_coordinates, hf]

theorem exploreFold_eq (grid : List (List Int)) (visited : List (List Bool))
    (h8 : Is8x8 grid) (hv8 : Is8x8 visited) (current : Node) :
    ∀ (ds : List (Int × Int)) (os : List Node),
      ds.foldl (exploreStep grid visited current) (some os) =
        some (((ds.map (childNode current)).filter (wanted grid visited)).foldl
          (pqPush nodeComp) os) := by
  intro ds
  induction ds with
  | nil => intro os; rfl
  | cons d t ih =>
    intro os
    rw [List.foldl_cons, exploreStep_eq grid visited h8 hv8, ih, List.map_cons, List.filter_cons]
    by_cases hw : wanted grid visited (childNode current d) = true
    · rw [if_pos hw, if_pos hw, List.foldl_cons]
    · rw [if_neg hw, if_neg hw]

theorem exploreNeighbors_eq (grid : List (List Int)) (visited : List (List Bool))
    (h8 : Is8x8 grid) (hv8 : Is8x8 visited) (current : Node) (os : List Node) :
    exploreNeighbors grid visited current os =
      some ((children grid visited current).foldl (pqPush nodeComp) os) :=
  exploreFold_eq grid visited h8 hv8 current directions os

theorem foldl_pqPush_perm {α : Type} (comp : α → α → Bool) :
    ∀ (l os : List α), (l.foldl (pqPush comp) os).Perm (l ++ os) := by
  intro l
  induction l with
  | nil => intro os; exact List.Perm.refl _
  | cons x t ih =>
    intro os
    rw [List.foldl_cons]
    refine (ih _).trans ?_
    refine ((pqPush_perm comp os x).append_left t).trans ?_
    exact List.perm_middle

theorem foldl_pqPush_heap {α : Type} (key : α → Int) (comp : α → α → Bool)
    (hcomp : ∀ a b, comp a b = decide (key a > key b)) :
    ∀ (l os : List α), IsHeap key os → IsHeap key (l.foldl (pqPush comp) os) := by
  intro l
  induction l with
  | nil => intro os h; exact h
  | cons x t ih =>
    intro os h
    rw [List.foldl_cons]
    exact ih _ (pqPush_heap key comp hcomp os x h)

theorem nodeComp_key (a b : Node) : nodeComp a b = decide (a.F > b.F) := rfl

theorem nodeWF_inBounds (grid : List (List Int)) (n : Node) (h : NodeWF grid n) :
    InBounds n.coordinates := by
  cases n with
  | mk c g hh p =>
    cases p with
    | none =>
      simp only [NodeWF] at h
      rw [Node.coordinates, h.1]
      decide
    | some q =>
      simp only [NodeWF] at h
      exact h.1.1

theorem nodeWF_H (grid : List (List Int)) (n : Node) (h : NodeWF grid n) :
    n.H = manhattanDistance n.coordinates target := by
  cases n with
  | mk c g hh p =>
    cases p with
    | none => simp only [NodeWF] at h; exact h.2.2
    | some q => simp only [NodeWF] at h; exact h.2.1

theorem top_min (os : List Node) (m : Node) (hh : IsHeap Node.F os) (ht : pqTop os = some m) :
    ∀ n ∈ os, m.F ≤ n.F := by
  intro n hn
  obtain ⟨i, hi⟩ := List.mem_iff_getElem?.mp hn
  rw [pqTop, List.head?_eq_getElem?] at ht
  exact hh.top_le i m n ht hi

theorem top_perm (os : List Node) (m : Node) (ht : pqTop os = some m) :
    os.Perm (m :: pqPop nodeComp os) := by
  cases os with
  | nil => simp [pqTop] at ht
  | cons a t =>
    simp only [pqTop, List.head?_cons, Option.some.injEq] at ht
    subst ht
    exact (pqPop_perm nodeComp a t).symm

theorem target_iff (c : Coordinate) : (c.x = target.x ∧ c.y = target.y) ↔ c = target := by
  cases c
  simp [target]

theorem step_next_spec (grid : List (List Int)) (h8 : Is8x8 grid) (s s2 : SearchState)
    (hinv : Inv grid s) (hs : step grid s = .next s2) :
    ∃ m rest, StepSpec grid s s2 m rest := by
  unfold step at hs
  cases ht : pqTop s.openSet with
  | none => rw [ht] at hs; simp at hs
  | some m =>
    rw [ht] at hs
    simp only [target_iff] at hs
    by_cases htar : m.coordinates = target
    · rw [if_pos htar] at hs; simp at hs
    · rw [if_neg htar] at hs
      have hm : m ∈ s.openSet := by
        have := List.mem_of_mem_head? (show m ∈ s.openSet.head? from ht)
        exact this
      have hb := nodeWF_inBounds grid m (hinv.wf m hm)
      obtain ⟨tbl2, h1, h2, h3⟩ := set2D_spec s.visited hinv.vis8 m.coordinates hb true
      rw [h1] at hs
      simp only [] at hs
      rw [exploreNeighbors_eq grid tbl2 h8 h2] at hs
      simp only [StepResult.next.injEq] at hs
      subst hs
      refine ⟨m, pqPop nodeComp s.openSet, ?_⟩
      exact {
        top := ht
        perm := top_perm s.openSet m ht
        min := top_min s.openSet m hinv.heap ht
        notTarget := htar
        vis8 := h2
        vis := (visitedAt_set2D s.visited tbl2 hinv.vis8 m.coordinates hb h1).2
        perm2 := foldl_pqPush_perm nodeComp _ _
        heap2 := foldl_pqPush_heap Node.F nodeComp nodeComp_key _ _
          (pqPop_heap Node.F nodeComp nodeComp_key _ hinv.heap)
      }

theorem step_not_fault (grid : List (List Int)) (h8 : Is8x8 grid) (s : SearchState)
    (hinv : Inv grid s) : step grid s ≠ .fault := by
  unfold step
  cases ht : pqTop s.openSet with
  | none => simp
  | some m =>
    simp only [target_iff]
    by_cases htar : m.coordinates = target
    · rw [if_pos htar]; simp
    · rw [if_neg htar]
      have hm : m ∈ s.openSet := List.mem_of_mem_head? (show m ∈ s.openSet.head? from ht)
      have hb := nodeWF_inBounds grid m (hinv.wf m hm)
      obtain ⟨tbl2, h1, h2, h3⟩ := set2D_spec s.visited hinv.vis8 m.coordinates hb true
      rw [h1]
      simp only []
      rw [exploreNeighbors_eq grid tbl2 h8 h2]
      simp

theorem step_done_spec (grid : List (List Int)) (s : SearchState) (p : List Coordinate)
    (hs : step grid s = .done p) :
    (s.openSet = [] ∧ p = []) ∨
      ∃ m, pqTop s.openSet = some m ∧ m.coordinates = target ∧ p = reconstructPath m := by
  unfold step at hs
  cases ht : pqTop s.openSet with
  | none =>
    left
    rw [ht] at hs
    simp only [StepResult.done.injEq] at hs
    refine ⟨?_, hs.symm⟩
    simpa [pqTop] using ht
  | some m =>
    right
    rw [ht] at hs
    simp only [target_iff] at hs
    by_cases htar : m.coordinates = target
    · rw [if_pos htar] at hs
      simp only [StepResult.done.injEq] at hs
      exact ⟨m, rfl, htar, hs.symm⟩
    · rw [if_neg htar] at hs
      split at hs
      · simp at hs
      · split at hs <;> simp at hs

/-! ## The loop invariant -/

theorem initial_openSet : initialState.openSet = [startNode] := rfl

theorem inv_initial (grid : List (List Int)) : Inv grid initialState where
  vis8 := is8x8_initial_visited
  heap := by
    rw [initial_openSet]
    intro i p c hi hp hc
    have := (List.getElem?_eq_some.mp hc).1
    simp at this
    omega
  wf := by
    intro n hn
    rw [initial_openSet, List.mem_singleton] at hn
    subst hn
    exact ⟨rfl, rfl, rfl⟩
  targetFresh := not_visitedAt_initial target

theorem mem_children (grid : List (List Int)) (visited : List (List Bool)) (m n : Node)
    (h : n ∈ children grid visited m) :
    (∃ d ∈ directions, n = childNode m d) ∧ Free grid n.coordinates ∧
      ¬ visitedAt visited n.coordinates := by
  unfold children at h
  rw [List.mem_filter, List.mem_map] at h
  obtain ⟨⟨d, hd, rfl⟩, hw⟩ := h
  simp only [wanted, Bool.and_eq_true, decide_eq_true_eq, Bool.not_eq_true',
    decide_eq_false_iff_not] at hw
  exact ⟨⟨d, hd, rfl⟩, hw.1, hw.2⟩

theorem adjacent_childNode (m : Node) (d : Int × Int) (hd : d ∈ directions) :
    Adjacent m.coordinates (childNode m d).coordinates := by
  rw [childNode_coordinates]
  rw [directions_eq] at hd
  simp only [List.mem_cons, List.mem_singleton, List.not_mem_nil, or_false] at hd
  unfold Adjacent
  rcases hd with h | h | h | h <;> subst h <;> simp

theorem nodeWF_childNode (grid : List (List Int)) (m : Node) (d : Int × Int)
    (hd : d ∈ directions) (hm : NodeWF grid m) (hnt : m.coordinates ≠ target)
    (hf : Free grid (childNode m d).coordinates) : NodeWF grid (childNode m d) := by
  have ha := adjacent_childNode m d hd
  rw [childNode_coordinates] at ha hf
  exact ⟨hf, rfl, rfl, ha, hnt, hm⟩

theorem StepSpec.mem_old {grid : List (List Int)} {s s2 : SearchState} {m : Node}
    {rest : List Node} (h : StepSpec grid s s2 m rest) (n : Node) :
    n ∈ s.openSet ↔ n = m ∨ n ∈ rest := by
  rw [h.perm.mem_iff, List.mem_cons]

theorem StepSpec.mem_new {grid : List (List Int)} {s s2 : SearchState} {m : Node}
    {rest : List Node} (h : StepSpec grid s s2 m rest) (n : Node) :
    n ∈ s2.openSet ↔ n ∈ children grid s2.visited m ∨ n ∈ rest := by
  rw [h.perm2.mem_iff, List.mem_append]

theorem StepSpec.top_mem {grid : List (List Int)} {s s2 : SearchState} {m : Node}
    {rest : List Node} (h : StepSpec grid s s2 m rest) : m ∈ s.openSet :=
  (h.mem_old m).mpr (Or.inl rfl)

theorem inv_of_stepSpec (grid : List (List Int)) (s s2 : SearchState) (m : Node)
    (rest : List Node) (hinv : Inv grid s) (h : StepSpec grid s s2 m rest) : Inv grid s2 where
  vis8 := h.vis8
  heap := h.heap2
  wf := by
    intro n hn
    rcases (h.mem_new n).mp hn with hc | hr
    · obtain ⟨⟨d, hd, rfl⟩, hf, -⟩ := mem_children grid s2.visited m n hc
      exact nodeWF_childNode grid m d hd (hinv.wf m h.top_mem) h.notTarget hf
    · exact hinv.wf n ((h.mem_old n).mpr (Or.inr hr))
  targetFresh := by
    rw [h.vis]
    intro hc
    rcases hc with hc | hc
    · exact h.notTarget hc.symm
    · exact hinv.targetFresh hc

theorem inv_next (grid : List (List Int)) (h8 : Is8x8 grid) (s s2 : SearchState)
    (hinv : Inv grid s) (hs : step grid s = .next s2) : Inv grid s2 := by
  obtain ⟨m, rest, h⟩ := step_next_spec grid h8 s s2 hinv hs
  exact inv_of_stepSpec grid s s2 m rest hinv h

theorem reachable_inv (grid : List (List Int)) (h8 : Is8x8 grid) (s : SearchState)
    (hr : Reachable grid s) : Inv grid s := by
  induction hr with
  | init => exact inv_initial grid
  | next _ hs ih => exact inv_next grid h8 _ _ ih hs

/-! ## Termination of the loop -/

theorem nodup_allCells : allCells.Nodup := by decide

theorem mem_allCells (c : Coordinate) (h : InBounds c) : c ∈ allCells := by
  obtain ⟨h0, h1, h2, h3⟩ := h
  simp only [allCells, List.mem_flatMap, List.mem_map, List.mem_range]
  have hx : c.x.toNat < 8 := by omega
  have hy : c.y.toNat < 8 := by omega
  have hc : Coordinate.mk (Int.ofNat c.x.toNat) (Int.ofNat c.y.toNat) = c := by
    cases c
    simp only [Coordinate.mk.injEq, Int.ofNat_eq_coe] at *
    omega
  exact ⟨c.y.toNat, hy, c.x.toNat, hx, hc⟩

theorem countP_flip {α : Type} (p q : α → Bool) (a : α) :
    ∀ (l : List α), l.Nodup → a ∈ l → (∀ c ∈ l, c ≠ a → p c = q c) → p a = true →
      q a = false → l.countP p = l.countP q + 1 := by
  intro l
  induction l with
  | nil => intro _ h; simp at h
  | cons b t ih =>
    intro hnd hmem hagree hp hq
    rw [List.nodup_cons] at hnd
    by_cases hba : b = a
    · subst hba
      have ht : t.countP p = t.countP q := by
        apply List.countP_congr
        intro x hx
        have hxb : x ≠ b := fun h => hnd.1 (h ▸ hx)
        rw [hagree x (List.mem_cons_of_mem _ hx) hxb]
      rw [List.countP_cons_of_pos _ _ hp, List.countP_cons_of_neg _ _ (by simp [hq]), ht]
    · have hat : a ∈ t := by
        rcases List.mem_cons.mp hmem with h | h
        · exact absurd h.symm hba
        · exact h
      have := ih hnd.2 hat (fun c hc hne => hagree c (List.mem_cons_of_mem _ hc) hne) hp hq
      have hb := hagree b (List.mem_cons_self _ _) hba
      rw [List.countP_cons, List.countP_cons, hb, this]
      omega

theorem unvisitedCount_same (t1 t2 : List (List Bool))
    (h : ∀ c, visitedAt t2 c ↔ visitedAt t1 c) : unvisitedCount t2 = unvisitedCount t1 := by
  unfold unvisitedCount
  apply List.countP_congr
  intro c _
  simp [h c]

theorem unvisitedCount_mark (t1 t2 : List (List Bool)) (a : Coordinate) (ha : InBounds a)
    (hna : ¬ visitedAt t1 a) (h : ∀ c, visitedAt t2 c ↔ (c = a ∨ visitedAt t1 c)) :
    unvisitedCount t1 = unvisitedCount t2 + 1 := by
  unfold unvisitedCount
  apply countP_flip _ _ a allCells nodup_allCells (mem_allCells a ha)
  · intro c _ hne
    have := h c
    simp only [hne, false_or] at this
    simp [this]
  · simp [hna]
  · simp [(h a).mpr (Or.inl rfl)]

theorem sum_map_le_of_le {α : Type} (f g : α → Nat) (l : List α) (h : ∀ x ∈ l, f x ≤ g x) :
    (l.map f).sum ≤ (l.map g).sum := by
  induction l with
  | nil => simp
  | cons a t ih =>
    simp only [List.map_cons, List.sum_cons]
    have := h a (List.mem_cons_self _ _)
    have := ih (fun x hx => h x (List.mem_cons_of_mem _ hx))
    omega

theorem sum_map_le_const {α : Type} (f : α → Nat) (k : Nat) (l : List α)
    (h : ∀ x ∈ l, f x ≤ k) : (l.map f).sum ≤ l.length * k := by
  induction l with
  | nil => simp
  | cons a t ih =>
    simp only [List.map_cons, List.sum_cons, List.length_cons]
    have := h a (List.mem_cons_self _ _)
    have := ih (fun x hx => h x (List.mem_cons_of_mem _ hx))
    rw [Nat.add_mul]
    omega

theorem children_length_le (grid : List (List Int)) (visited : List (List Bool)) (m : Node) :
    (children grid visited m).length ≤ 4 := by
  unfold children
  refine le_trans (List.length_filter_le _ _) ?_
  rw [directions_eq]
  simp

theorem potential_decrease (grid : List (List Int)) (s s2 : SearchState) (m : Node)
    (rest : List Node) (hb : InBounds m.coordinates) (h : StepSpec grid s s2 m rest) :
    potential s2 < potential s := by
  have e1 : potential s = weight s.visited m + (rest.map (weight s.visited)).sum := by
    unfold potential
    rw [(h.perm.map _).sum_eq, List.map_cons, List.sum_cons]
  have e2 : potential s2 = ((children grid s2.visited m).map (weight s2.visited)).sum
      + (rest.map (weight s2.visited)).sum := by
    unfold potential
    rw [(h.perm2.map _).sum_eq, List.map_append, List.sum_append]
  have hch : ((children grid s2.visited m).map (weight s2.visited)).sum
      ≤ 4 * 5 ^ unvisitedCount s2.visited := by
    refine le_trans (sum_map_le_const _ (5 ^ unvisitedCount s2.visited) _ ?_) ?_
    · intro n hn
      have := (mem_children grid s2.visited m n hn).2.2
      unfold weight
      rw [if_neg this]
      exact le_refl _
    · exact Nat.mul_le_mul_right _ (children_length_le grid s2.visited m)
  by_cases hv : visitedAt s.visited m.coordinates
  · have hsame : ∀ c, visitedAt s2.visited c ↔ visitedAt s.visited c := by
      intro c
      rw [h.vis c]
      constructor
      · rintro (rfl | h2)
        · exact hv
        · exact h2
      · exact Or.inr
    have hU := unvisitedCount_same s.visited s2.visited hsame
    have hrest : (rest.map (weight s2.visited)).sum ≤ (rest.map (weight s.visited)).sum := by
      apply sum_map_le_of_le
      intro n _
      unfold weight
      rw [hU]
      simp only [hsame n.coordinates]
      exact le_refl _
    have hm : weight s.visited m = 5 * 5 ^ unvisitedCount s2.visited := by
      unfold weight
      rw [if_pos hv, hU, pow_succ]
      ring
    have hpos : 0 < 5 ^ unvisitedCount s2.visited := by positivity
    omega
  · have hU := unvisitedCount_mark s.visited s2.visited m.coordinates hb hv h.vis
    have hrest : (rest.map (weight s2.visited)).sum ≤ (rest.map (weight s.visited)).sum := by
      apply sum_map_le_of_le
      intro n _
      unfold weight
      rw [hU]
      apply Nat.pow_le_pow_right (by norm_num)
      split <;> omega
    have hm : weight s.visited m = 5 * 5 ^ unvisitedCount s2.visited := by
      unfold weight
      rw [if_neg hv, hU, pow_succ]
      ring
    have hpos : 0 < 5 ^ unvisitedCount s2.visited := by positivity
    omega

theorem potential_step (grid : List (List Int)) (h8 : Is8x8 grid) (s s2 : SearchState)
    (hinv : Inv grid s) (hs : step grid s = .next s2) : potential s2 < potential s := by
  obtain ⟨m, rest, h⟩ := step_next_spec grid h8 s s2 hinv hs
  exact potential_decrease grid s s2 m rest (nodeWF_inBounds grid m (hinv.wf m h.top_mem)) h

theorem potential_initial : potential initialState < searchFuel := by
  decide

/-- From a state that satisfies the invariant, a loop with more fuel than the measure
returns a path. -/
theorem searchLoop_returns (grid : List (List Int)) (h8 : Is8x8 grid) :
    ∀ (fuel : Nat) (s : SearchState), Inv grid s → potential s < fuel →
      ∃ p, searchLoop grid fuel s = .returned p := by
  intro fuel
  induction fuel with
  | zero => intro s _ h; omega
  | succ k ih =>
    intro s hinv hpot
    unfold searchLoop
    cases hs : step grid s with
    | done p => exact ⟨p, rfl⟩
    | fault => exact absurd hs (step_not_fault grid h8 s hinv)
    | next s2 =>
      simp only []
      have := potential_step grid h8 s s2 hinv hs
      exact ih s2 (inv_next grid h8 s s2 hinv hs) (by omega)

/-! ## Heuristic, routes and reconstructed paths -/

theorem manhattan_consistent (a b t : Coordinate) (h : Adjacent a b) :
    manhattanDistance a t ≤ manhattanDistance b t + 1 := by
  unfold manhattanDistance intAbs
  unfold Adjacent at h
  split <;> split <;> split <;> split <;> omega

theorem manhattan_self (t : Coordinate) : manhattanDistance t t = 0 := by
  unfold manhattanDistance intAbs
  simp

theorem adjacent_symm (a b : Coordinate) (h : Adjacent a b) : Adjacent b a := by
  unfold Adjacent at *
  omega

theorem adjacent_irrefl (a : Coordinate) : ¬ Adjacent a a := by
  unfold Adjacent
  omega

/-- Along a chain of 4-adjacent cells the heuristic is at most the number of steps. -/
theorem manhattan_le_chain (t : Coordinate) :
    ∀ (r : List Coordinate) (c : Coordinate), List.Chain Adjacent c r →
      (c :: r).getLast? = some t → manhattanDistance c t ≤ r.length := by
  intro r
  induction r with
  | nil =>
    intro c _ hl
    simp only [List.getLast?_singleton, Option.some.injEq] at hl
    subst hl
    simp [manhattan_self]
  | cons b r2 ih =>
    intro c hch hl
    rw [List.chain_cons] at hch
    rw [List.getLast?_cons_cons] at hl
    have h1 := ih b hch.2 hl
    have h2 := manhattan_consistent c b t hch.1
    simp only [List.length_cons, Nat.cast_add, Nat.cast_one]
    omega

theorem nodeWF_G_nonneg (grid : List (List Int)) : ∀ n : Node, NodeWF grid n → 0 ≤ n.G
  | .mk _ _ _ none, h => by
    simp only [NodeWF] at h
    simp [Node.G, h.2.1]
  | .mk _ _ _ (some p), h => by
    simp only [NodeWF] at h
    have := nodeWF_G_nonneg grid p h.2.2.2.2.2
    simp only [Node.G]
    omega

theorem nodeWF_chain_length (grid : List (List Int)) :
    ∀ n : Node, NodeWF grid n → (n.chain.length : Int) = n.G + 1
  | .mk _ _ _ none, h => by
    simp only [NodeWF] at h
    simp [Node.chain, Node.G, h.2.1]
  | .mk _ _ _ (some p), h => by
    simp only [NodeWF] at h
    have := nodeWF_chain_length grid p h.2.2.2.2.2
    simp only [Node.chain, Node.G, List.length_cons, Nat.cast_add, Nat.cast_one]
    omega

theorem chain_head (n : Node) : n.chain.head? = some n.coordinates := by
  cases n with
  | mk c g h p => cases p <;> rfl

theorem nodeWF_chain_last (grid : List (List Int)) :
    ∀ n : Node, NodeWF grid n → n.chain.getLast? = some ⟨0, 0⟩
  | .mk _ _ _ none, h => by
    simp only [NodeWF] at h
    simp [Node.chain, h.1]
  | .mk c _ _ (some p), h => by
    simp only [NodeWF] at h
    have := nodeWF_chain_last grid p h.2.2.2.2.2
    simp only [Node.chain]
    obtain ⟨x, t, hx⟩ : ∃ x t, p.chain = x :: t := by
      cases hp : p.chain with
      | nil => rw [hp] at this; simp at this
      | cons x t => exact ⟨x, t, rfl⟩
    rw [hx, List.getLast?_cons_cons, ← hx]
    exact this

theorem nodeWF_chain_free (grid : List (List Int)) (h0 : Free grid ⟨0, 0⟩) :
    ∀ n : Node, NodeWF grid n → ∀ c ∈ n.chain, Free grid c
  | .mk _ _ _ none, h => by
    simp only [NodeWF] at h
    intro c hc
    simp only [Node.chain, List.mem_singleton] at hc
    rw [hc, h.1]
    exact h0
  | .mk _ _ _ (some p), h => by
    simp only [NodeWF] at h
    intro c hc
    simp only [Node.chain, List.mem_cons] at hc
    rcases hc with hc | hc
    · rw [hc]; exact h.1
    · exact nodeWF_chain_free grid h0 p h.2.2.2.2.2 c hc

theorem nodeWF_chain_adjacent (grid : List (List Int)) :
    ∀ n : Node, NodeWF grid n → List.Chain' (fun a b => Adjacent b a) n.chain
  | .mk _ _ _ none, _ => by
    simp [Node.chain]
  | .mk c _ _ (some p), h => by
    simp only [NodeWF] at h
    have ih := nodeWF_chain_adjacent grid p h.2.2.2.2.2
    simp only [Node.chain]
    rw [List.chain'_cons']
    refine ⟨?_, ih⟩
    intro y hy
    rw [chain_head] at hy
    simp only [Option.mem_def, Option.some.injEq] at hy
    rw [← hy]
    exact h.2.2.2.1

theorem reconstructPath_route (grid : List (List Int)) (h0 : Free grid ⟨0, 0⟩) (n : Node)
    (h : NodeWF grid n) : RouteFromTo grid ⟨0, 0⟩ n.coordinates (reconstructPath n) := by
  unfold reconstructPath
  refine ⟨⟨?_, ?_, ?_⟩, ?_, ?_⟩
  · intro hnil
    have := chain_head n
    rw [List.reverse_eq_nil_iff] at hnil
    rw [hnil] at this
    simp at this
  · intro c hc
    exact nodeWF_chain_free grid h0 n h c (List.mem_reverse.mp hc)
  · rw [List.chain'_reverse]
    exact nodeWF_chain_adjacent grid n h
  · rw [List.head?_reverse]
    exact nodeWF_chain_last grid n h
  · rw [List.getLast?_reverse]
    exact chain_head n

/-! ## Cost bookkeeping -/

theorem optInv_initial (grid : List (List Int)) : OptInv grid initialState (fun _ => 0) where
  start := Or.inr ⟨startNode, by rw [initial_openSet]; exact List.mem_singleton.mpr rfl,
    rfl, le_refl _⟩
  edge := fun c _ hv => absurd hv (not_visitedAt_initial c)
  low := fun c hv => absurd hv (not_visitedAt_initial c)

theorem child_F_ge (grid : List (List Int)) (visited : List (List Bool)) (m n : Node)
    (hm : NodeWF grid m) (hn : n ∈ children grid visited m) : m.F ≤ n.F := by
  obtain ⟨⟨d, hd, rfl⟩, -, -⟩ := mem_children grid visited m n hn
  have ha := adjacent_childNode m d hd
  have hc := manhattan_consistent m.coordinates (childNode m d).coordinates target ha
  unfold Node.F
  rw [childNode_G, childNode_H, nodeWF_H grid m hm]
  omega

theorem children_cover (grid : List (List Int)) (visited : List (List Bool)) (m : Node)
    (c : Coordinate) (ha : Adjacent m.coordinates c) (hf : Free grid c)
    (hv : ¬ visitedAt visited c) :
    ∃ n ∈ children grid visited m, n.coordinates = c ∧ n.G = m.G + 1 := by
  have hd : ∃ d ∈ directions, (childNode m d).coordinates = c := by
    simp only [childNode_coordinates]
    unfold Adjacent at ha
    cases c with
    | mk x y =>
      simp only [] at ha
      rw [directions_eq]
      simp only [List.mem_cons, List.mem_singleton, List.not_mem_nil, or_false,
        exists_eq_or_imp, exists_eq_left, Coordinate.mk.injEq]
      omega
  obtain ⟨d, hd, hc⟩ := hd
  refine ⟨childNode m d, ?_, hc, childNode_G m d⟩
  unfold children
  rw [List.mem_filter]
  refine ⟨List.mem_map.mpr ⟨d, hd, rfl⟩, ?_⟩
  simp only [wanted, hc, Bool.and_eq_true, decide_eq_true_eq, Bool.not_eq_true',
    decide_eq_false_iff_not]
  exact ⟨hf, hv⟩

/-- A marked cell whose node is on top of the frontier was expanded at a cost that is
not above the cost of that node. -/
theorem gv_le_top (grid : List (List Int)) (s : SearchState) (gv : Coordinate → Int)
    (m : Node) (hm : m ∈ s.openSet) (hwf : NodeWF grid m) (hopt : OptInv grid s gv)
    (hv : visitedAt s.visited m.coordinates) : gv m.coordinates ≤ m.G := by
  have := hopt.low m.coordinates hv m hm
  unfold Node.F at this
  rw [nodeWF_H grid m hwf] at this
  omega

theorem optInv_of_stepSpec_revisit (grid : List (List Int)) (s s2 : SearchState) (m : Node)
    (rest : List Node) (gv : Coordinate → Int) (hinv : Inv grid s) (hopt : OptInv grid s gv)
    (h : StepSpec grid s s2 m rest) (hv : visitedAt s.visited m.coordinates) :
    OptInv grid s2 gv := by
  have hmwf := hinv.wf m h.top_mem
  have hgm := gv_le_top grid s gv m h.top_mem hmwf hopt hv
  have hsame : ∀ c, visitedAt s2.visited c ↔ visitedAt s.visited c := by
    intro c
    rw [h.vis c]
    constructor
    · rintro (rfl | h2)
      · exact hv
      · exact h2
    · exact Or.inr
  refine ⟨?_, ?_, ?_⟩
  · rcases hopt.start with ⟨h1, h2⟩ | ⟨n, hn, hc, hg⟩
    · exact Or.inl ⟨(hsame _).mpr h1, h2⟩
    · rcases (h.mem_old n).mp hn with rfl | hr
      · left
        rw [hc] at hv hgm
        exact ⟨(hsame _).mpr hv, by omega⟩
      · exact Or.inr ⟨n, (h.mem_new n).mpr (Or.inr hr), hc, hg⟩
  · intro c c2 hvc hadj hfree
    rw [hsame] at hvc
    rcases hopt.edge c c2 hvc hadj hfree with ⟨h1, h2⟩ | ⟨n, hn, hc, hg⟩
    · exact Or.inl ⟨(hsame _).mpr h1, h2⟩
    · rcases (h.mem_old n).mp hn with rfl | hr
      · left
        rw [hc] at hv hgm
        exact ⟨(hsame _).mpr hv, by omega⟩
      · exact Or.inr ⟨n, (h.mem_new n).mpr (Or.inr hr), hc, hg⟩
  · intro c hvc n hn
    rw [hsame] at hvc
    rcases (h.mem_new n).mp hn with hch | hr
    · have h1 := child_F_ge grid s2.visited m n hmwf hch
      have h2 := hopt.low c hvc m h.top_mem
      omega
    · exact hopt.low c hvc n ((h.mem_old n).mpr (Or.inr hr))

theorem optInv_of_stepSpec_fresh (grid : List (List Int)) (s s2 : SearchState) (m : Node)
    (rest : List Node) (gv : Coordinate → Int) (hinv : Inv grid s) (hopt : OptInv grid s gv)
    (h : StepSpec grid s s2 m rest) (hv : ¬ visitedAt s.visited m.coordinates) :
    OptInv grid s2 (fun c => if c = m.coordinates then m.G else gv c) := by
  have hmwf := hinv.wf m h.top_mem
  have hne : ∀ c, visitedAt s.visited c → c ≠ m.coordinates := by
    intro c hc heq
    rw [heq] at hc
    exact hv hc
  refine ⟨?_, ?_, ?_⟩
  · rcases hopt.start with ⟨h1, h2⟩ | ⟨n, hn, hc, hg⟩
    · left
      refine ⟨(h.vis _).mpr (Or.inr h1), ?_⟩
      simp only [if_neg (hne _ h1)]
      exact h2
    · rcases (h.mem_old n).mp hn with rfl | hr
      · left
        refine ⟨(h.vis _).mpr (Or.inl hc.symm), ?_⟩
        simp only [if_pos hc.symm]
        exact hg
      · exact Or.inr ⟨n, (h.mem_new n).mpr (Or.inr hr), hc, hg⟩
  · intro c c2 hvc hadj hfree
    rcases (h.vis c).mp hvc with rfl | hvc1
    · simp only [if_true]
      by_cases hv2 : visitedAt s2.visited c2
      · left
        refine ⟨hv2, ?_⟩
        rcases (h.vis c2).mp hv2 with heq | hv2s
        · rw [heq] at hadj
          exact absurd hadj (adjacent_irrefl _)
        · simp only [if_neg (hne _ hv2s)]
          have h1 := hopt.low c2 hv2s m h.top_mem
          have h2 := manhattan_consistent m.coordinates c2 target hadj
          unfold Node.F at h1
          rw [nodeWF_H grid m hmwf] at h1
          omega
      · right
        obtain ⟨n, hn, hc, hg⟩ := children_cover grid s2.visited m c2 hadj hfree hv2
        exact ⟨n, (h.mem_new n).mpr (Or.inl hn), hc, by omega⟩
    · simp only [if_neg (hne _ hvc1)]
      rcases hopt.edge c c2 hvc1 hadj hfree with ⟨h1, h2⟩ | ⟨n, hn, hc, hg⟩
      · left
        refine ⟨(h.vis _).mpr (Or.inr h1), ?_⟩
        simp only [if_neg (hne _ h1)]
        exact h2
      · rcases (h.mem_old n).mp hn with rfl | hr
        · left
          refine ⟨(h.vis _).mpr (Or.inl hc.symm), ?_⟩
          simp only [if_pos hc.symm]
          exact hg
        · exact Or.inr ⟨n, (h.mem_new n).mpr (Or.inr hr), hc, hg⟩
  · intro c hvc n hn
    have hmn : m.F ≤ n.F := by
      rcases (h.mem_new n).mp hn with hch | hr
      · exact child_F_ge grid s2.visited m n hmwf hch
      · exact h.min n ((h.mem_old n).mpr (Or.inr hr))
    rcases (h.vis c).mp hvc with rfl | hvc1
    · simp only [if_true]
      unfold Node.F at hmn ⊢
      rw [nodeWF_H grid m hmwf] at hmn
      omega
    · simp only [if_neg (hne _ hvc1)]
      have := hopt.low c hvc1 m h.top_mem
      omega

theorem optInv_next (grid : List (List Int)) (h8 : Is8x8 grid) (s s2 : SearchState)
    (gv : Coordinate → Int) (hinv : Inv grid s) (hopt : OptInv grid s gv)
    (hs : step grid s = .next s2) : ∃ gv2, OptInv grid s2 gv2 := by
  obtain ⟨m, rest, h⟩ := step_next_spec grid h8 s s2 hinv hs
  by_cases hv : visitedAt s.visited m.coordinates
  · exact ⟨gv, optInv_of_stepSpec_revisit grid s s2 m rest gv hinv hopt h hv⟩
  · exact ⟨_, optInv_of_stepSpec_fresh grid s s2 m rest gv hinv hopt h hv⟩

/-- Behind a marked cell of cost at most `i`, a chain of free cells that ends on the
target meets the frontier at a priority of at most `i` plus its number of steps. -/
theorem frontier_on_chain (grid : List (List Int)) (s : SearchState) (gv : Coordinate → Int)
    (hinv : Inv grid s) (hopt : OptInv grid s gv) :
    ∀ (r : List Coordinate) (c : Coordinate) (i : Int), List.Chain Adjacent c r →
      (∀ x ∈ r, Free grid x) → (c :: r).getLast? = some target →
      visitedAt s.visited c → gv c ≤ i → ∃ n ∈ s.openSet, n.F ≤ i + r.length := by
  intro r
  induction r with
  | nil =>
    intro c i _ _ hl hv _
    simp only [List.getLast?_singleton, Option.some.injEq] at hl
    rw [hl] at hv
    exact absurd hv hinv.targetFresh
  | cons b r2 ih =>
    intro c i hch hfree hl hv hg
    rw [List.chain_cons] at hch
    rw [List.getLast?_cons_cons] at hl
    have hfb := hfree b (List.mem_cons_self _ _)
    simp only [List.length_cons, Nat.cast_add, Nat.cast_one]
    rcases hopt.edge c b hv hch.1 hfb with ⟨h1, h2⟩ | ⟨n, hn, hc, hgn⟩
    · obtain ⟨n, hn, hF⟩ := ih b (i + 1) hch.2
        (fun x hx => hfree x (List.mem_cons_of_mem _ hx)) hl h1 (by omega)
      exact ⟨n, hn, by omega⟩
    · refine ⟨n, hn, ?_⟩
      have hH := nodeWF_H grid n (hinv.wf n hn)
      have hm := manhattan_le_chain target r2 b hch.2 hl
      unfold Node.F
      rw [hH, hc]
      omega

/-- Every route from the start to the target meets the frontier at a priority that is
at most its number of edges. -/
theorem frontier_on_route (grid : List (List Int)) (s : SearchState) (gv : Coordinate → Int)
    (hinv : Inv grid s) (hopt : OptInv grid s gv) (r : List Coordinate)
    (hr : RouteFromTo grid ⟨0, 0⟩ target r) :
    ∃ n ∈ s.openSet, n.F + 1 ≤ r.length := by
  obtain ⟨⟨hne, hfree, hch⟩, hhead, hlast⟩ := hr
  cases r with
  | nil => exact absurd rfl hne
  | cons c r2 =>
    simp only [List.head?_cons, Option.some.injEq] at hhead
    subst hhead
    rw [List.chain'_cons'] at hch
    have hch2 : List.Chain Adjacent ⟨0, 0⟩ r2 := by
      cases r2 with
      | nil => exact List.Chain.nil
      | cons b t =>
        exact List.Chain.cons (hch.1 b (by simp)) hch.2
    simp only [List.length_cons, Nat.cast_add, Nat.cast_one]
    rcases hopt.start with ⟨h1, h2⟩ | ⟨n, hn, hc, hg⟩
    · obtain ⟨n, hn, hF⟩ := frontier_on_chain grid s gv hinv hopt r2 _ 0 hch2
        (fun x hx => hfree x (List.mem_cons_of_mem _ hx)) hlast h1 h2
      exact ⟨n, hn, by omega⟩
    · refine ⟨n, hn, ?_⟩
      have hH := nodeWF_H grid n (hinv.wf n hn)
      have hm := manhattan_le_chain target r2 _ hch2 hlast
      unfold Node.F
      rw [hH, hc]
      omega

/-- What the loop returns from a state that satisfies the invariants: the empty path
only when no route exists, otherwise the reconstruction of a well-formed node on the
target whose cost is minimal among routes. -/
theorem searchLoop_result (grid : List (List Int)) (h8 : Is8x8 grid) :
    ∀ (fuel : Nat) (s : SearchState) (gv : Coordinate → Int) (p : List Coordinate),
      Inv grid s → OptInv grid s gv → searchLoop grid fuel s = .returned p →
      (p = [] ∧ ∀ r, ¬ RouteFromTo grid ⟨0, 0⟩ target r) ∨
      ∃ m, NodeWF grid m ∧ m.coordinates = target ∧ p = reconstructPath m ∧
        ∀ r, RouteFromTo grid ⟨0, 0⟩ target r → m.G + 1 ≤ r.length := by
  intro fuel
  induction fuel with
  | zero => intro s gv p _ _ h; simp [searchLoop] at h
  | succ k ih =>
    intro s gv p hinv hopt hres
    unfold searchLoop at hres
    cases hs : step grid s with
    | fault => rw [hs] at hres; simp at hres
    | next s2 =>
      rw [hs] at hres
      simp only [] at hres
      obtain ⟨gv2, hopt2⟩ := optInv_next grid h8 s s2 gv hinv hopt hs
      exact ih s2 gv2 p (inv_next grid h8 s s2 hinv hs) hopt2 hres
    | done q =>
      rw [hs] at hres
      simp only [Outcome.returned.injEq] at hres
      subst hres
      rcases step_done_spec grid s q hs with ⟨hem, hq⟩ | ⟨m, ht, htar, hq⟩
      · left
        refine ⟨hq, ?_⟩
        intro r hr
        obtain ⟨n, hn, -⟩ := frontier_on_route grid s gv hinv hopt r hr
        rw [hem] at hn
        simp at hn
      · right
        have hm : m ∈ s.openSet := List.mem_of_mem_head? (show m ∈ s.openSet.head? from ht)
        have hmwf := hinv.wf m hm
        refine ⟨m, hmwf, htar, hq, ?_⟩
        intro r hr
        obtain ⟨n, hn, hF⟩ := frontier_on_route grid s gv hinv hopt r hr
        have hmin := top_min s.openSet m hinv.heap ht n hn
        have hH := nodeWF_H grid m hmwf
        rw [htar, manhattan_self] at hH
        unfold Node.F at hmin
        unfold Node.F at hF
        omega

/-! ## Runs of the loop -/

theorem advance_reachable (grid : List (List Int)) :
    ∀ (k : Nat) (s s2 : SearchState), Reachable grid s → advance grid k s = some s2 →
      Reachable grid s2 := by
  intro k
  induction k with
  | zero =>
    intro s s2 hr h
    simp only [advance, Option.some.injEq] at h
    exact h ▸ hr
  | succ k ih =>
    intro s s2 hr h
    unfold advance at h
    cases hs : step grid s with
    | done p => rw [hs] at h; simp at h
    | fault => rw [hs] at h; simp at h
    | next s3 =>
      rw [hs] at h
      exact ih s3 s2 (Reachable.next hr hs) h

theorem stateAfter_reachable (grid : List (List Int)) (k : Nat) (s : SearchState)
    (h : stateAfter grid k = some s) : Reachable grid s :=
  advance_reachable grid k initialState s Reachable.init h

theorem stateAfter_inv (grid : List (List Int)) (h8 : Is8x8 grid) (k : Nat) (s : SearchState)
    (h : stateAfter grid k = some s) : Inv grid s :=
  reachable_inv grid h8 s (stateAfter_reachable grid k s h)

theorem advance_succ (grid : List (List Int)) :
    ∀ (k : Nat) (s : SearchState), advance grid (k + 1) s =
      match advance grid k s with
      | none => none
      | some s2 =>
        match step grid s2 with
        | .next s3 => some s3
        | _ => none := by
  intro k
  induction k with
  | zero =>
    intro s
    cases hs : step grid s <;> simp [advance, hs]
  | succ k ih =>
    intro s
    rw [advance]
    cases hs : step grid s with
    | done p => simp [advance, hs]
    | fault => simp [advance, hs]
    | next s3 =>
      simp only []
      rw [ih s3]
      conv => rhs; rw [advance, hs]

/-- From a state that satisfies the invariant the loop ends after fewer iterations than
the measure plus one, on a state whose frontier is empty or has the target on top, and
every larger fuel gives the same returned path. -/
theorem loop_ends (grid : List (List Int)) (h8 : Is8x8 grid) :
    ∀ (n : Nat) (s : SearchState), Inv grid s → potential s < n →
      ∃ k s2 p, k < n ∧ advance grid k s = some s2 ∧ step grid s2 = .done p ∧
        ∀ fuel, n ≤ fuel → searchLoop grid fuel s = .returned p := by
  intro n
  induction n with
  | zero => intro s _ h; omega
  | succ n ih =>
    intro s hinv hpot
    cases hs : step grid s with
    | fault => exact absurd hs (step_not_fault grid h8 s hinv)
    | done p =>
      refine ⟨0, s, p, by omega, rfl, hs, ?_⟩
      intro fuel hf
      obtain ⟨f, rfl⟩ : ∃ f, fuel = f + 1 := ⟨fuel - 1, by omega⟩
      simp [searchLoop, hs]
    | next s3 =>
      have hdec := potential_step grid h8 s s3 hinv hs
      obtain ⟨k, s2, p, hk, hadv, hdone, hfuel⟩ :=
        ih s3 (inv_next grid h8 s s3 hinv hs) (by omega)
      refine ⟨k + 1, s2, p, by omega, ?_, hdone, ?_⟩
      · simp only [advance, hs]
        exact hadv
      · intro fuel hf
        obtain ⟨f, rfl⟩ : ∃ f, fuel = f + 1 := ⟨fuel - 1, by omega⟩
        simp only [searchLoop, hs]
        exact hfuel f (by omega)

theorem potential_initial_eq : potential initialState = 5 ^ 64 := by decide

theorem findShortestPath_returns (grid : List (List Int)) (h8 : Is8x8 grid) :
    ∃ p, findShortestPath grid = .returned p :=
  searchLoop_returns grid h8 searchFuel initialState (inv_initial grid) potential_initial

theorem findShortestPath_result (grid : List (List Int)) (h8 : Is8x8 grid)
    (p : List Coordinate) (hp : findShortestPath grid = .returned p) :
    (p = [] ∧ ∀ r, ¬ RouteFromTo grid ⟨0, 0⟩ target r) ∨
      ∃ m, NodeWF grid m ∧ m.coordinates = target ∧ p = reconstructPath m ∧
        ∀ r, RouteFromTo grid ⟨0, 0⟩ target r → m.G + 1 ≤ r.length :=
  searchLoop_result grid h8 searchFuel initialState (fun _ => 0) p (inv_initial grid)
    (optInv_initial grid) hp

theorem reconstructPath_length (grid : List (List Int)) (m : Node) (h : NodeWF grid m) :
    ((reconstructPath m).length : Int) = m.G + 1 := by
  unfold reconstructPath
  rw [List.length_reverse]
  exact nodeWF_chain_length grid m h

theorem reconstructPath_ne_nil (m : Node) : reconstructPath m ≠ [] := by
  unfold reconstructPath
  intro h
  rw [List.reverse_eq_nil_iff] at h
  have := chain_head m
  rw [h] at this
  simp at this

/-! ## The grid is read inside its top-left 8x8 block only -/

theorem index2D_block8 (grid : List (List Int)) (c : Coordinate) (hb : InBounds c) :
    index2D (block8 grid) c.y c.x = index2D grid c.y c.x := by
  obtain ⟨h0, h1, h2, h3⟩ := hb
  unfold index2D block8
  rw [if_neg (by omega), if_neg (by omega)]
  rw [List.getElem?_map, List.getElem?_take, if_pos (by omega)]
  cases hrow : grid[c.y.toNat]? with
  | none => rfl
  | some row =>
    simp only [Option.map_some']
    rw [List.getElem?_take, if_pos (by omega)]

theorem isTraversable_block8 (grid : List (List Int)) (x y : Int) :
    isTraversable (block8 grid) x y = isTraversable grid x y := by
  unfold isTraversable
  by_cases hv : isValidCoordinate x y = true
  · rw [if_pos hv, if_pos hv]
    have hb : InBounds ⟨x, y⟩ := by
      simp only [isValidCoordinate, gridSize, Bool.and_eq_true, decide_eq_true_eq] at hv
      exact ⟨hv.1.1.1, hv.1.1.2, hv.1.2, hv.2⟩
    have := index2D_block8 grid ⟨x, y⟩ hb
    simp only [] at this
    rw [this]
  · rw [if_neg hv, if_neg hv]

theorem exploreStep_block8 (grid : List (List Int)) (visited : List (List Bool))
    (current : Node) (os : Option (List Node)) (d : Int × Int) :
    exploreStep (block8 grid) visited current os d = exploreStep grid visited current os d := by
  unfold exploreStep
  simp only [isTraversable_block8]

theorem step_block8 (grid : List (List Int)) (s : SearchState) :
    step (block8 grid) s = step grid s := by
  unfold step exploreNeighbors
  have : exploreStep (block8 grid) = exploreStep grid := by
    funext v c os d
    exact exploreStep_block8 grid v c os d
  simp only [this]

theorem searchLoop_block8 (grid : List (List Int)) :
    ∀ (fuel : Nat) (s : SearchState),
      searchLoop (block8 grid) fuel s = searchLoop grid fuel s := by
  intro fuel
  induction fuel with
  | zero => intro s; rfl
  | succ k ih =>
    intro s
    unfold searchLoop
    rw [step_block8]
    cases step grid s with
    | done p => rfl
    | fault => rfl
    | next s2 => exact ih s2

theorem is8x8_block8 (grid : List (List Int)) (hrows : 8 ≤ grid.length)
    (hcols : ∀ row ∈ grid.take 8, 8 ≤ row.length) : Is8x8 (block8 grid) := by
  unfold block8
  refine ⟨?_, ?_⟩
  · rw [List.length_map, List.length_take]
    omega
  · intro row hrow
    rw [List.mem_map] at hrow
    obtain ⟨r, hr, rfl⟩ := hrow
    rw [List.length_take]
    have := hcols r hr
    omega

/-! ## Properties of `findShortestPath` -/

/-- C1 (optimality): on an 8x8 grid whose start cell (0,0) is free, a non-empty path
returned by `findShortestPath` is a 4-directional route from (0,0) to (7,7) through free
cells, and its number of edges (length minus 1) is at most the number of edges of every
such route, so it equals the length of a shortest route.  (That (7,7) is free follows
from the path being non-empty and is not needed as a hypothesis.) -/
theorem optimality (grid : List (List Int)) (h8 : Is8x8 grid) (hstart : Free grid ⟨0, 0⟩)
    (p : List Coordinate) (hp : findShortestPath grid = .returned p) (hne : p ≠ []) :
    RouteFromTo grid ⟨0, 0⟩ ⟨7, 7⟩ p ∧
      ∀ r, RouteFromTo grid ⟨0, 0⟩ ⟨7, 7⟩ r → p.length - 1 ≤ r.length - 1 := by
  rcases findShortestPath_result grid h8 p hp with ⟨hnil, -⟩ | ⟨m, hwf, htar, hpm, hmin⟩
  · exact absurd hnil hne
  · have hroute := reconstructPath_route grid hstart m hwf
    rw [htar, ← hpm] at hroute
    refine ⟨hroute, ?_⟩
    intro r hr
    have h1 := hmin r hr
    have h2 := reconstructPath_length grid m hwf
    rw [← hpm] at h2
    omega

/-- Witness for C1: the corridor grid, where the search returns the corridor. -/
theorem optimality_witness :
    Is8x8 corridorGrid ∧ Free corridorGrid ⟨0, 0⟩ ∧
      findShortestPath corridorGrid = .returned corridorPath ∧ corridorPath ≠ [] ∧
      (RouteFromTo corridorGrid ⟨0, 0⟩ ⟨7, 7⟩ corridorPath ∧
        ∀ r, RouteFromTo corridorGrid ⟨0, 0⟩ ⟨7, 7⟩ r →
          corridorPath.length - 1 ≤ r.length - 1) :=
  ⟨by decide, by decide, by decide!, by decide,
    optimality corridorGrid (by decide) (by decide) corridorPath (by decide!) (by decide)⟩

/-- C2 (validity): on an 8x8 grid whose start cell (0,0) is free, in every path returned
by `findShortestPath` consecutive coordinates are 4-adjacent and every coordinate
satisfies `0 <= x < 8`, `0 <= y < 8` and `grid[y][x] == 0`. -/
theorem validity (grid : List (List Int)) (h8 : Is8x8 grid) (hstart : Free grid ⟨0, 0⟩)
    (p : List Coordinate) (hp : findShortestPath grid = .returned p) :
    List.Chain' Adjacent p ∧
      ∀ c ∈ p, 0 ≤ c.x ∧ c.x < 8 ∧ 0 ≤ c.y ∧ c.y < 8 ∧ index2D grid c.y c.x = some 0 := by
  rcases findShortestPath_result grid h8 p hp with ⟨hnil, -⟩ | ⟨m, hwf, -, hpm, -⟩
  · subst hnil
    exact ⟨List.chain'_nil, fun c hc => absurd hc (List.not_mem_nil c)⟩
  · obtain ⟨⟨-, hfree, hch⟩, -, -⟩ := reconstructPath_route grid hstart m hwf
    rw [← hpm] at hfree hch
    refine ⟨hch, ?_⟩
    intro c hc
    obtain ⟨⟨a, b, c2, d⟩, e⟩ := hfree c hc
    exact ⟨a, b, c2, d, e⟩

/-- Witness for C2: the grid of `main`. -/
theorem validity_witness :
    Is8x8 mainGrid ∧ Free mainGrid ⟨0, 0⟩ ∧ findShortestPath mainGrid = .returned mainPath ∧
      (List.Chain' Adjacent mainPath ∧
        ∀ c ∈ mainPath, 0 ≤ c.x ∧ c.x < 8 ∧ 0 ≤ c.y ∧ c.y < 8 ∧
          index2D mainGrid c.y c.x = some 0) :=
  ⟨by decide, by decide, by decide!,
    validity mainGrid (by decide) (by decide) mainPath (by decide!)⟩

/-- C3 (endpoints): on an 8x8 grid, a non-empty path returned by `findShortestPath`
starts with (0,0) and ends with (7,7). -/
theorem endpoints (grid : List (List Int)) (h8 : Is8x8 grid) (p : List Coordinate)
    (hp : findShortestPath grid = .returned p) (hne : p ≠ []) :
    p.head? = some ⟨0, 0⟩ ∧ p.getLast? = some ⟨7, 7⟩ := by
  rcases findShortestPath_result grid h8 p hp with ⟨hnil, -⟩ | ⟨m, hwf, htar, hpm, -⟩
  · exact absurd hnil hne
  · subst hpm
    unfold reconstructPath
    refine ⟨?_, ?_⟩
    · rw [List.head?_reverse]
      exact nodeWF_chain_last grid m hwf
    · rw [List.getLast?_reverse, chain_head, htar]
      rfl

/-- Witness for C3: the grid with an obstacle on the start cell, where a path is
returned all the same. -/
theorem endpoints_witness :
    Is8x8 startBlockedGrid ∧ findShortestPath startBlockedGrid = .returned startBlockedPath ∧
      startBlockedPath ≠ [] ∧
      (startBlockedPath.head? = some ⟨0, 0⟩ ∧ startBlockedPath.getLast? = some ⟨7, 7⟩) :=
  ⟨by decide, by decide!, by decide,
    endpoints startBlockedGrid (by decide) startBlockedPath (by decide!) (by decide)⟩

/-- C4 (completeness, no route): on an 8x8 grid whose start cell (0,0) is free,
`findShortestPath` returns a path, and that path is empty if and only if there is no
4-directional route through free cells from (0,0) to (7,7). -/
theorem completeness (grid : List (List Int)) (h8 : Is8x8 grid) (hstart : Free grid ⟨0, 0⟩) :
    ∃ p, findShortestPath grid = .returned p ∧
      (p = [] ↔ ¬ ∃ r, RouteFromTo grid ⟨0, 0⟩ ⟨7, 7⟩ r) := by
  obtain ⟨p, hp⟩ := findShortestPath_returns grid h8
  refine ⟨p, hp, ?_⟩
  rcases findShortestPath_result grid h8 p hp with ⟨hnil, hno⟩ | ⟨m, hwf, htar, hpm, -⟩
  · constructor
    · rintro - ⟨r, hr⟩
      exact hno r hr
    · intro _
      exact hnil
  · have hroute := reconstructPath_route grid hstart m hwf
    rw [htar, ← hpm] at hroute
    constructor
    · intro hnil
      rw [hpm] at hnil
      exact absurd hnil (reconstructPath_ne_nil m)
    · intro hno
      exact absurd ⟨p, hroute⟩ hno

/-- Witness for C4: a grid in which a wall of obstacles separates start and target; the
empty path is returned. -/
theorem completeness_witness :
    Is8x8 wallGrid ∧ Free wallGrid ⟨0, 0⟩ ∧ findShortestPath wallGrid = .returned [] ∧
      ∃ p, findShortestPath wallGrid = .returned p ∧
        (p = [] ↔ ¬ ∃ r, RouteFromTo wallGrid ⟨0, 0⟩ ⟨7, 7⟩ r) :=
  ⟨by decide, by decide, by decide!, completeness wallGrid (by decide) (by decide)⟩

/-- C5 (termination): on every 8x8 grid the loop of `findShortestPath` ends after at
most `5 ^ 64` complete iterations, at a loop head where the frontier is empty or has a
node of the target on top; every fuel above `5 ^ 64` yields the same returned path,
which is the result of `findShortestPath`. -/
theorem termination (grid : List (List Int)) (h8 : Is8x8 grid) :
    ∃ k s p, k ≤ 5 ^ 64 ∧ stateAfter grid k = some s ∧
      (s.openSet = [] ∨ ∃ m, pqTop s.openSet = some m ∧ m.coordinates = target) ∧
      (∀ fuel, 5 ^ 64 < fuel → searchLoop grid fuel initialState = .returned p) ∧
      findShortestPath grid = .returned p := by
  obtain ⟨k, s, p, hk, hadv, hdone, hfuel⟩ :=
    loop_ends grid h8 (5 ^ 64 + 1) initialState (inv_initial grid)
      (by rw [potential_initial_eq]; omega)
  refine ⟨k, s, p, by omega, hadv, ?_, fun fuel hf => hfuel fuel (by omega), ?_⟩
  · rcases step_done_spec grid s p hdone with ⟨h, -⟩ | ⟨m, h1, h2, -⟩
    · exact Or.inl h
    · exact Or.inr ⟨m, h1, h2⟩
  · exact hfuel searchFuel (by decide)

/-- Witness for C5: the grid of `main`. -/
theorem termination_witness :
    Is8x8 mainGrid ∧
      ∃ k s p, k ≤ 5 ^ 64 ∧ stateAfter mainGrid k = some s ∧
        (s.openSet = [] ∨ ∃ m, pqTop s.openSet = some m ∧ m.coordinates = target) ∧
        (∀ fuel, 5 ^ 64 < fuel → searchLoop mainGrid fuel initialState = .returned p) ∧
        findShortestPath mainGrid = .returned p :=
  ⟨by decide, termination mainGrid (by decide)⟩

/-- C6, counterexample: on a grid whose start cell (0,0) is an obstacle, no error is
reported and a non-empty path of 15 coordinates is returned. -/
theorem invalidEndpoint_counterexample :
    Is8x8 startBlockedGrid ∧ index2D startBlockedGrid 0 0 = some 1 ∧
      findShortestPath startBlockedGrid = .returned startBlockedPath ∧
      startBlockedPath.length = 15 :=
  ⟨by decide, by decide, by decide!, by decide⟩

/-- C6, amended: on an 8x8 grid whose target cell (7,7) is not free, `findShortestPath`
returns the empty path, the very result it gives when no route exists; there is no
separate error outcome. -/
theorem goalBlocked_returns_empty (grid : List (List Int)) (h8 : Is8x8 grid)
    (hgoal : ¬ Free grid ⟨7, 7⟩) : findShortestPath grid = .returned [] := by
  obtain ⟨p, hp⟩ := findShortestPath_returns grid h8
  rw [hp]
  rcases findShortestPath_result grid h8 p hp with ⟨hnil, -⟩ | ⟨m, hwf, htar, -, -⟩
  · rw [hnil]
  · exfalso
    cases m with
    | mk c g h par =>
      cases par with
      | none =>
        simp only [NodeWF] at hwf
        simp only [Node.coordinates] at htar
        rw [htar] at hwf
        exact absurd hwf.1 (by decide)
      | some q =>
        simp only [NodeWF] at hwf
        simp only [Node.coordinates] at htar
        rw [htar] at hwf
        exact hgoal hwf.1

/-- Witness for C6 amended: the grid whose only obstacle is the target cell. -/
theorem goalBlocked_witness :
    Is8x8 goalBlockedGrid ∧ ¬ Free goalBlockedGrid ⟨7, 7⟩ ∧
      findShortestPath goalBlockedGrid = .returned [] :=
  ⟨by decide, by decide, goalBlocked_returns_empty goalBlockedGrid (by decide) (by decide)⟩

/-- C7 (concrete scenario): on the grid of `main`, `findShortestPath` returns a path of
exactly 15 coordinates (14 edges, the Manhattan distance from (0,0) to (7,7)) that
starts at (0,0), ends at (7,7) and runs over cells of value 0 only. -/
theorem concrete_scenario :
    ∃ p, findShortestPath mainGrid = .returned p ∧ p.length = 15 ∧
      ((p.length : Int) - 1 = 14 ∧ manhattanDistance ⟨0, 0⟩ ⟨7, 7⟩ = 14) ∧
      p.head? = some ⟨0, 0⟩ ∧ p.getLast? = some ⟨7, 7⟩ ∧
      ∀ c ∈ p, index2D mainGrid c.y c.x = some 0 :=
  ⟨mainPath, by decide!, by decide, by decide, by decide, by decide, by decide⟩

/-- C8, counterexample: on the grid of `main` the fifth removal takes the node of (1,1)
created in iteration 3 although the node of (1,1) created in iteration 2 has the same
priority and is still in the frontier. -/
theorem stableTies_counterexample : ¬ StableTies mainGrid := by
  intro h
  have h2 : newerNode ∈ frontierAfter mainGrid 2 :=
    h 4 2 newerNode olderNode (by decide) (by decide) (by decide) (by decide) (by decide)
  exact absurd h2 (by decide)

/-- C8, amended: whenever `findShortestPath` removes a node from the frontier, the node
removed is the front of the heap and its priority `F = G + H` is minimal in the
frontier; which of several nodes of minimal priority is removed is decided by the
layout of the binary heap, not by the order of insertion. -/
theorem top_is_minimal (grid : List (List Int)) (h8 : Is8x8 grid) (k : Nat) (m : Node)
    (hm : pqTop (frontierAfter grid k) = some m) :
    ∀ n ∈ frontierAfter grid k, m.F ≤ n.F := by
  unfold frontierAfter at hm ⊢
  cases hs : stateAfter grid k with
  | none => rw [hs] at hm; simp [pqTop] at hm
  | some s =>
    rw [hs] at hm
    simp only [] at hm ⊢
    exact top_min s.openSet m (stateAfter_inv grid h8 k s hs).heap hm

/-- Witness for C8 amended: the fifth removal on the grid of `main`. -/
theorem top_is_minimal_witness :
    Is8x8 mainGrid ∧ pqTop (frontierAfter mainGrid 4) = some newerNode ∧
      ∀ n ∈ frontierAfter mainGrid 4, newerNode.F ≤ n.F :=
  ⟨by decide, by decide, top_is_minimal mainGrid (by decide) 4 newerNode (by decide)⟩

/-- C9, counterexample: a grid whose first row has nine entries is not rejected; it is
searched and the path of the grid of `main` is returned. -/
theorem malformed_counterexample :
    ¬ Is8x8 raggedGrid ∧ (stateAfter raggedGrid 1).isSome = true ∧
      findShortestPath raggedGrid = .returned mainPath :=
  ⟨by decide, by decide, by decide!⟩

/-- C9, amended: `findShortestPath` does not validate the shape of the grid; it reads
the grid inside rows 0..7 and columns 0..7 only, so a grid with at least 8 rows whose
first 8 rows have at least 8 entries each, rectangular or not, is searched exactly as
its top-left 8x8 block, and a path is returned. -/
theorem reads_block_only (grid : List (List Int)) (hrows : 8 ≤ grid.length)
    (hcols : ∀ row ∈ grid.take 8, 8 ≤ row.length) :
    findShortestPath grid = findShortestPath (block8 grid) ∧
      ∃ p, findShortestPath grid = .returned p := by
  have heq : findShortestPath grid = findShortestPath (block8 grid) :=
    (searchLoop_block8 grid searchFuel initialState).symm
  refine ⟨heq, ?_⟩
  rw [heq]
  exact findShortestPath_returns (block8 grid) (is8x8_block8 grid hrows hcols)

/-- Witness for C9 amended: the grid whose first row has nine entries. -/
theorem reads_block_only_witness :
    8 ≤ raggedGrid.length ∧ (∀ row ∈ raggedGrid.take 8, 8 ≤ row.length) ∧
      (findShortestPath raggedGrid = findShortestPath (block8 raggedGrid) ∧
        ∃ p, findShortestPath raggedGrid = .returned p) :=
  ⟨by decide, by decide, reads_block_only raggedGrid (by decide) (by decide)⟩

/-- C10, counterexample: on the grid of `main` the cell (1,2) is expanded in iteration 8
and again in iteration 9; the node popped in iteration 9 lies on a cell already marked
in `visited` and its expansion still inserts nodes into the frontier. -/
theorem revisit_counterexample :
    expansions mainGrid 9 =
        [⟨0, 0⟩, ⟨1, 0⟩, ⟨0, 1⟩, ⟨2, 0⟩, ⟨1, 1⟩, ⟨0, 2⟩, ⟨2, 1⟩, ⟨1, 2⟩, ⟨1, 2⟩] ∧
      ¬ (expansions mainGrid 9).Nodup ∧ revisitAt mainGrid 8 = true :=
  ⟨by decide, by decide, by decide⟩

/-- C10, amended: a cell marked in `visited` is never inserted into the frontier again:
every node that an iteration adds to the frontier lies on a cell that is not marked at
the end of that iteration.  (Nodes of a marked cell that are already in the frontier
are still popped and expanded.) -/
theorem inserted_unvisited (grid : List (List Int)) (h8 : Is8x8 grid) (k : Nat) (n : Node)
    (hn : n ∈ frontierAfter grid (k + 1)) (hnew : n ∉ frontierAfter grid k) :
    ¬ visitedAt (visitedAfter grid (k + 1)) n.coordinates := by
  unfold frontierAfter at hn hnew
  unfold visitedAfter
  unfold stateAfter at *
  rw [advance_succ] at hn ⊢
  cases hs : advance grid k initialState with
  | none => rw [hs] at hn; simp at hn
  | some s =>
    rw [hs] at hn hnew
    simp only [] at hn hnew ⊢
    cases hst : step grid s with
    | done p => rw [hst] at hn; simp at hn
    | fault => rw [hst] at hn; simp at hn
    | next s2 =>
      rw [hst] at hn
      simp only [] at hn ⊢
      have hinv := stateAfter_inv grid h8 k s hs
      obtain ⟨m, rest, hspec⟩ := step_next_spec grid h8 s s2 hinv hst
      rcases (hspec.mem_new n).mp hn with hc | hr
      · exact (mem_children grid s2.visited m n hc).2.2
      · exact absurd ((hspec.mem_old n).mpr (Or.inr hr)) hnew

/-- Witness for C10 amended: a node added in iteration 9 on the grid of `main`. -/
theorem inserted_unvisited_witness :
    Is8x8 mainGrid ∧
      (frontierAfter mainGrid 9).getD 8 startNode ∈ frontierAfter mainGrid 9 ∧
      (frontierAfter mainGrid 9).getD 8 startNode ∉ frontierAfter mainGrid 8 ∧
      ¬ visitedAt (visitedAfter mainGrid 9)
        ((frontierAfter mainGrid 9).getD 8 startNode).coordinates :=
  ⟨by decide, by decide, by decide,
    inserted_unvisited mainGrid (by decide) 8 _ (by decide) (by decide)⟩

/-! ## Loop heads of a run -/

theorem stateAfter_succ (grid : List (List Int)) (k : Nat) (s2 : SearchState)
    (h : stateAfter grid (k + 1) = some s2) :
    ∃ s, stateAfter grid k = some s ∧ step grid s = .next s2 := by
  unfold stateAfter at *
  rw [advance_succ] at h
  cases hs : advance grid k initialState with
  | none => rw [hs] at h; simp at h
  | some s =>
    rw [hs] at h
    simp only [] at h
    cases hst : step grid s with
    | done p => rw [hst] at h; simp at h
    | fault => rw [hst] at h; simp at h
    | next s3 =>
      rw [hst] at h
      simp only [Option.some.injEq] at h
      exact ⟨s, rfl, h ▸ hst⟩

theorem stateAfter_step (grid : List (List Int)) (k : Nat) (s s2 : SearchState)
    (h : stateAfter grid k = some s) (hst : step grid s = .next s2) :
    stateAfter grid (k + 1) = some s2 := by
  unfold stateAfter at *
  rw [advance_succ, h]
  simp only [hst]

theorem frontierAfter_mem (grid : List (List Int)) (k : Nat) (n : Node)
    (h : n ∈ frontierAfter grid k) :
    ∃ s, stateAfter grid k = some s ∧ frontierAfter grid k = s.openSet ∧
      visitedAfter grid k = s.visited := by
  unfold frontierAfter visitedAfter at *
  cases hs : stateAfter grid k with
  | none => rw [hs] at h; simp at h
  | some s => exact ⟨s, rfl, rfl, rfl⟩

theorem frontierAfter_top (grid : List (List Int)) (k : Nat) (m : Node)
    (h : pqTop (frontierAfter grid k) = some m) :
    ∃ s, stateAfter grid k = some s ∧ frontierAfter grid k = s.openSet ∧
      visitedAfter grid k = s.visited :=
  frontierAfter_mem grid k m (List.mem_of_mem_head? (show m ∈ (frontierAfter grid k).head? from h))

theorem frontierAfter_of_state (grid : List (List Int)) (k : Nat) (s : SearchState)
    (h : stateAfter grid k = some s) :
    frontierAfter grid k = s.openSet ∧ visitedAfter grid k = s.visited := by
  unfold frontierAfter visitedAfter
  rw [h]
  exact ⟨rfl, rfl⟩

/-- The iteration that pops a node outside the target: the exact frontier and the
exact `visited` table it leaves. -/
theorem step_next_eq (grid : List (List Int)) (h8 : Is8x8 grid) (s : SearchState)
    (hinv : Inv grid s) (m : Node) (ht : pqTop s.openSet = some m)
    (hnt : m.coordinates ≠ target) :
    ∃ s2, step grid s = .next s2 ∧
      set2D s.visited m.coordinates.y m.coordinates.x true = some s2.visited ∧
      s2.openSet = (children grid s2.visited m).foldl (pqPush nodeComp)
        (pqPop nodeComp s.openSet) := by
  have hm : m ∈ s.openSet := List.mem_of_mem_head? (show m ∈ s.openSet.head? from ht)
  have hb := nodeWF_inBounds grid m (hinv.wf m hm)
  obtain ⟨tbl2, h1, h2, -⟩ := set2D_spec s.visited hinv.vis8 m.coordinates hb true
  refine ⟨⟨(children grid tbl2 m).foldl (pqPush nodeComp) (pqPop nodeComp s.openSet), tbl2⟩,
    ?_, h1, rfl⟩
  unfold step
  rw [ht]
  simp only [target_iff]
  rw [if_neg hnt, h1]
  simp only []
  rw [exploreNeighbors_eq grid tbl2 h8 h2]

theorem step_top (grid : List (List Int)) (s s2 : SearchState) (h : step grid s = .next s2) :
    ∃ m, pqTop s.openSet = some m ∧ m.coordinates ≠ target := by
  unfold step at h
  cases ht : pqTop s.openSet with
  | none => rw [ht] at h; simp at h
  | some m =>
    rw [ht] at h
    simp only [target_iff] at h
    by_cases htar : m.coordinates = target
    · rw [if_pos htar] at h; simp at h
    · exact ⟨m, rfl, htar⟩

theorem children_eq_expected (grid : List (List Int)) (visited : List (List Bool)) (m : Node) :
    children grid visited m = expectedInsertions grid visited m := by
  unfold children expectedInsertions
  rw [directions_eq]
  have e1 : m.coordinates.x + 0 = m.coordinates.x := by omega
  have e2 : m.coordinates.y + -1 = m.coordinates.y - 1 := by omega
  have e3 : m.coordinates.y + 0 = m.coordinates.y := by omega
  have e4 : m.coordinates.x + -1 = m.coordinates.x - 1 := by omega
  simp only [List.map_cons, List.map_nil, childNode, e1, e2, e3, e4]
  have hf : wanted grid visited = (fun n => decide (0 ≤ n.coordinates.x ∧
      n.coordinates.x < 8 ∧ 0 ≤ n.coordinates.y ∧ n.coordinates.y < 8 ∧
      index2D grid n.coordinates.y n.coordinates.x = some 0 ∧
      ¬ visitedAt visited n.coordinates)) := by
    funext n
    unfold wanted Free InBounds
    by_cases h1 : visitedAt visited n.coordinates <;> simp [h1, and_assoc]
  rw [hf]
  rfl

theorem expectedInsertions_congr (grid : List (List Int)) (v1 v2 : List (List Bool)) (m : Node)
    (h : ∀ c, c ≠ m.coordinates → (visitedAt v2 c ↔ visitedAt v1 c)) :
    expectedInsertions grid v2 m = expectedInsertions grid v1 m := by
  unfold expectedInsertions
  apply List.filter_congr
  intro n hn
  have hne : n.coordinates ≠ m.coordinates := by
    simp only [List.mem_cons, List.mem_singleton, List.not_mem_nil, or_false] at hn
    intro heq
    have hx := congrArg Coordinate.x heq
    have hy := congrArg Coordinate.y heq
    rcases hn with h | h | h | h <;> rw [h] at hx hy <;> simp only [Node.coordinates] at hx hy <;>
      omega
  simp only [h n.coordinates hne]

/-! ## Cost of a cell when it is first marked -/

theorem reachable_optInv (grid : List (List Int)) (h8 : Is8x8 grid) (s : SearchState)
    (hr : Reachable grid s) : ∃ gv, OptInv grid s gv := by
  induction hr with
  | init => exact ⟨_, optInv_initial grid⟩
  | next hr hs ih =>
    obtain ⟨gv, hopt⟩ := ih
    exact optInv_next grid h8 _ _ gv (reachable_inv grid h8 _ hr) hopt hs

/-- Along a chain of 4-adjacent cells the heuristic drops by at most the number of
steps. -/
theorem manhattan_triangle (t e : Coordinate) :
    ∀ (r : List Coordinate) (c : Coordinate), List.Chain Adjacent c r →
      (c :: r).getLast? = some e →
      manhattanDistance c t ≤ r.length + manhattanDistance e t := by
  intro r
  induction r with
  | nil =>
    intro c _ hl
    simp only [List.getLast?_singleton, Option.some.injEq] at hl
    subst hl
    simp
  | cons b r2 ih =>
    intro c hch hl
    rw [List.chain_cons] at hch
    rw [List.getLast?_cons_cons] at hl
    have h1 := ih b hch.2 hl
    have h2 := manhattan_consistent c b t hch.1
    simp only [List.length_cons, Nat.cast_add, Nat.cast_one]
    omega

/-- Behind a marked cell of cost at most `i`, a chain of free cells that ends on an
unmarked cell `e` meets the frontier at a priority of at most `i`, plus its number of
steps, plus the heuristic of `e`. -/
theorem frontier_on_chain_to (grid : List (List Int)) (s : SearchState)
    (gv : Coordinate → Int) (hinv : Inv grid s) (hopt : OptInv grid s gv) (e : Coordinate)
    (he : ¬ visitedAt s.visited e) :
    ∀ (r : List Coordinate) (c : Coordinate) (i : Int), List.Chain Adjacent c r →
      (∀ x ∈ r, Free grid x) → (c :: r).getLast? = some e →
      visitedAt s.visited c → gv c ≤ i →
      ∃ n ∈ s.openSet, n.F ≤ i + r.length + manhattanDistance e target := by
  intro r
  induction r with
  | nil =>
    intro c i _ _ hl hv _
    simp only [List.getLast?_singleton, Option.some.injEq] at hl
    rw [hl] at hv
    exact absurd hv he
  | cons b r2 ih =>
    intro c i hch hfree hl hv hg
    rw [List.chain_cons] at hch
    rw [List.getLast?_cons_cons] at hl
    have hfb := hfree b (List.mem_cons_self _ _)
    simp only [List.length_cons, Nat.cast_add, Nat.cast_one]
    rcases hopt.edge c b hv hch.1 hfb with ⟨h1, h2⟩ | ⟨n, hn, hc, hgn⟩
    · obtain ⟨n, hn, hF⟩ := ih b (i + 1) hch.2
        (fun x hx => hfree x (List.mem_cons_of_mem _ hx)) hl h1 (by omega)
      exact ⟨n, hn, by omega⟩
    · refine ⟨n, hn, ?_⟩
      have hH := nodeWF_H grid n (hinv.wf n hn)
      have hm := manhattan_triangle target e r2 b hch.2 hl
      unfold Node.F
      rw [hH, hc]
      omega

/-- Every route from the start to an unmarked cell `e` meets the frontier at a
priority of at most its number of edges plus the heuristic of `e`. -/
theorem frontier_on_route_to (grid : List (List Int)) (s : SearchState)
    (gv : Coordinate → Int) (hinv : Inv grid s) (hopt : OptInv grid s gv) (e : Coordinate)
    (he : ¬ visitedAt s.visited e) (r : List Coordinate)
    (hr : RouteFromTo grid ⟨0, 0⟩ e r) :
    ∃ n ∈ s.openSet, n.F + 1 ≤ r.length + manhattanDistance e target := by
  obtain ⟨⟨hne, hfree, hch⟩, hhead, hlast⟩ := hr
  cases r with
  | nil => exact absurd rfl hne
  | cons c r2 =>
    simp only [List.head?_cons, Option.some.injEq] at hhead
    subst hhead
    rw [List.chain'_cons'] at hch
    have hch2 : List.Chain Adjacent ⟨0, 0⟩ r2 := by
      cases r2 with
      | nil => exact List.Chain.nil
      | cons b t =>
        exact List.Chain.cons (hch.1 b (by simp)) hch.2
    simp only [List.length_cons, Nat.cast_add, Nat.cast_one]
    rcases hopt.start with ⟨h1, h2⟩ | ⟨n, hn, hc, hg⟩
    · obtain ⟨n, hn, hF⟩ := frontier_on_chain_to grid s gv hinv hopt e he r2 _ 0 hch2
        (fun x hx => hfree x (List.mem_cons_of_mem _ hx)) hlast h1 h2
      exact ⟨n, hn, by omega⟩
    · refine ⟨n, hn, ?_⟩
      have hH := nodeWF_H grid n (hinv.wf n hn)
      have hm := manhattan_triangle target e r2 _ hch2 hlast
      unfold Node.F
      rw [hH, hc]
      omega

/-- The node on top of the frontier, when its cell is not marked yet, costs no more
than any route from the start to its cell. -/
theorem top_cost_le_route (grid : List (List Int)) (h8 : Is8x8 grid) (s : SearchState)
    (hr : Reachable grid s) (m : Node) (ht : pqTop s.openSet = some m)
    (hfresh : ¬ visitedAt s.visited m.coordinates) (r : List Coordinate)
    (hroute : RouteFromTo grid ⟨0, 0⟩ m.coordinates r) : m.G + 1 ≤ r.length := by
  have hinv := reachable_inv grid h8 s hr
  obtain ⟨gv, hopt⟩ := reachable_optInv grid h8 s hr
  obtain ⟨n, hn, hF⟩ := frontier_on_route_to grid s gv hinv hopt m.coordinates hfresh r hroute
  have hmin := top_min s.openSet m hinv.heap ht n hn
  have hm : m ∈ s.openSet := List.mem_of_mem_head? (show m ∈ s.openSet.head? from ht)
  have hH := nodeWF_H grid m (hinv.wf m hm)
  unfold Node.F at hmin hF
  omega

/-! ## Priorities of successive pops -/

theorem nodeWF_parent (grid : List (List Int)) (n p : Node) (h : NodeWF grid n)
    (hp : n.parent = some p) :
    NodeWF grid p ∧ n.G = p.G + 1 ∧ Adjacent p.coordinates n.coordinates := by
  cases n with
  | mk c g hh par =>
    cases par with
    | none => simp [Node.parent] at hp
    | some q =>
      simp only [Node.parent, Option.some.injEq] at hp
      subst hp
      simp only [NodeWF] at h
      exact ⟨h.2.2.2.2.2, h.2.2.1, h.2.2.2.1⟩

theorem parent_F_le (grid : List (List Int)) (n p : Node) (h : NodeWF grid n)
    (hp : n.parent = some p) : p.F ≤ n.F := by
  obtain ⟨hpw, hg, ha⟩ := nodeWF_parent grid n p h hp
  have h1 := nodeWF_H grid n h
  have h2 := nodeWF_H grid p hpw
  have h3 := manhattan_consistent p.coordinates n.coordinates target ha
  unfold Node.F
  omega

theorem next_top_ge (grid : List (List Int)) (h8 : Is8x8 grid) (s s2 : SearchState)
    (hinv : Inv grid s) (hst : step grid s = .next s2) (a b : Node)
    (ha : pqTop s.openSet = some a) (hb : pqTop s2.openSet = some b) : a.F ≤ b.F := by
  obtain ⟨m, rest, hspec⟩ := step_next_spec grid h8 s s2 hinv hst
  have hma : m = a := by
    have := hspec.top
    rw [ha] at this
    exact (Option.some.inj this).symm
  subst hma
  have hbm : b ∈ s2.openSet := List.mem_of_mem_head? (show b ∈ s2.openSet.head? from hb)
  rcases (hspec.mem_new b).mp hbm with hc | hr
  · exact child_F_ge grid s2.visited m b (hinv.wf m hspec.top_mem) hc
  · exact hspec.min b ((hspec.mem_old b).mpr (Or.inr hr))

theorem tops_monotone (grid : List (List Int)) (h8 : Is8x8 grid) :
    ∀ (d j : Nat) (a b : Node), pqTop (frontierAfter grid j) = some a →
      pqTop (frontierAfter grid (j + d)) = some b → a.F ≤ b.F := by
  intro d
  induction d with
  | zero =>
    intro j a b ha hb
    rw [Nat.add_zero, ha] at hb
    cases hb
    exact le_refl _
  | succ d ih =>
    intro j a b ha hb
    obtain ⟨s2, hs2, hf2, -⟩ := frontierAfter_top grid (j + (d + 1)) b hb
    obtain ⟨s, hs, hst⟩ := stateAfter_succ grid (j + d) s2 hs2
    obtain ⟨m, hm, -⟩ := step_top grid s s2 hst
    have hf := (frontierAfter_of_state grid (j + d) s hs).1
    have h1 := ih j a m ha (by rw [hf]; exact hm)
    have hb2 : pqTop s2.openSet = some b := by rw [← hf2]; exact hb
    have h2 := next_top_ge grid h8 s s2 (stateAfter_inv grid h8 (j + d) s hs) hst m b hm hb2
    omega

/-! ## Predecessor chains -/

theorem chain_cases (n : Node) :
    (n.parent = none ∧ n.chain = [n.coordinates]) ∨
      ∃ p, n.parent = some p ∧ n.chain = n.coordinates :: p.chain := by
  cases n with
  | mk c g h par =>
    cases par with
    | none => exact Or.inl ⟨rfl, rfl⟩
    | some p => exact Or.inr ⟨p, rfl, rfl⟩

theorem chainInv_initial : ChainInv initialState := by
  intro n hn
  rw [initial_openSet, List.mem_singleton] at hn
  subst hn
  refine ⟨by decide, ?_⟩
  intro p hp
  simp [startNode, Node.parent] at hp

/-- After the iteration that pops `m`, every cell of the chain of `m` is marked. -/
theorem chain_marked (grid : List (List Int)) (s s2 : SearchState) (m : Node)
    (rest : List Node) (hch : ChainInv s) (h : StepSpec grid s s2 m rest) :
    ∀ c ∈ m.chain, visitedAt s2.visited c := by
  intro c hc
  rcases chain_cases m with ⟨-, hm⟩ | ⟨p, hp, hm⟩
  · rw [hm, List.mem_singleton] at hc
    exact (h.vis c).mpr (Or.inl hc)
  · rw [hm, List.mem_cons] at hc
    rcases hc with hc | hc
    · exact (h.vis c).mpr (Or.inl hc)
    · exact (h.vis c).mpr (Or.inr ((hch m h.top_mem).2 p hp c hc))

theorem chainInv_of_stepSpec (grid : List (List Int)) (s s2 : SearchState) (m : Node)
    (rest : List Node) (hch : ChainInv s) (h : StepSpec grid s s2 m rest) : ChainInv s2 := by
  intro n hn
  rcases (h.mem_new n).mp hn with hc | hr
  · obtain ⟨⟨d, -, rfl⟩, -, hfresh⟩ := mem_children grid s2.visited m n hc
    have hmark := chain_marked grid s s2 m rest hch h
    refine ⟨?_, ?_⟩
    · show ((childNode m d).coordinates :: m.chain).Nodup
      rw [List.nodup_cons]
      exact ⟨fun hmem => hfresh (hmark _ hmem), (hch m h.top_mem).1⟩
    · intro p hp
      have : p = m := (Option.some.inj hp).symm
      subst this
      exact hmark
  · obtain ⟨h1, h2⟩ := hch n ((h.mem_old n).mpr (Or.inr hr))
    exact ⟨h1, fun p hp c hc => (h.vis c).mpr (Or.inr (h2 p hp c hc))⟩

theorem reachable_chainInv (grid : List (List Int)) (h8 : Is8x8 grid) (s : SearchState)
    (hr : Reachable grid s) : ChainInv s := by
  induction hr with
  | init => exact chainInv_initial
  | next hr hs ih =>
    obtain ⟨m, rest, h⟩ := step_next_spec grid h8 _ _ (reachable_inv grid h8 _ hr) hs
    exact chainInv_of_stepSpec grid _ _ m rest ih h

/-! ## Shape of the nodes on any grid -/

theorem exploreStep_none (grid : List (List Int)) (visited : List (List Bool)) (m : Node)
    (d : Int × Int) : exploreStep grid visited m none d = none := rfl

theorem exploreFold_none (grid : List (List Int)) (visited : List (List Bool)) (m : Node) :
    ∀ ds : List (Int × Int), ds.foldl (exploreStep grid visited m) none = none := by
  intro ds
  induction ds with
  | nil => rfl
  | cons d t ih => rw [List.foldl_cons, exploreStep_none, ih]

theorem exploreStep_cases (grid : List (List Int)) (visited : List (List Bool)) (m : Node)
    (os os2 : List Node) (d : Int × Int)
    (h : exploreStep grid visited m (some os) d = some os2) :
    os2 = os ∨ os2 = pqPush nodeComp os (childNode m d) := by
  unfold exploreStep at h
  simp only [] at h
  split at h
  · simp at h
  · left
    exact (Option.some.inj h).symm
  · split at h
    · simp at h
    · left
      exact (Option.some.inj h).symm
    · right
      exact (Option.some.inj h).symm

theorem exploreFold_mem (grid : List (List Int)) (visited : List (List Bool)) (m : Node) :
    ∀ (ds : List (Int × Int)) (os os2 : List Node),
      ds.foldl (exploreStep grid visited m) (some os) = some os2 →
      ∀ n ∈ os2, n ∈ os ∨ ∃ d ∈ ds, n = childNode m d := by
  intro ds
  induction ds with
  | nil =>
    intro os os2 h n hn
    simp only [List.foldl_nil, Option.some.injEq] at h
    rw [← h] at hn
    exact Or.inl hn
  | cons d t ih =>
    intro os os2 h n hn
    rw [List.foldl_cons] at h
    cases hstep : exploreStep grid visited m (some os) d with
    | none =>
      rw [hstep, exploreFold_none] at h
      simp at h
    | some os1 =>
      rw [hstep] at h
      rcases ih os1 os2 h n hn with h1 | ⟨d2, hd2, hn2⟩
      · rcases exploreStep_cases grid visited m os os1 d hstep with he | he
        · rw [he] at h1
          exact Or.inl h1
        · rw [he, (pqPush_perm nodeComp os (childNode m d)).mem_iff, List.mem_cons] at h1
          rcases h1 with h1 | h1
          · exact Or.inr ⟨d, List.mem_cons_self _ _, h1⟩
          · exact Or.inl h1
      · exact Or.inr ⟨d2, List.mem_cons_of_mem _ hd2, hn2⟩

/-- On any grid, an iteration that continues the loop leaves in the frontier only nodes
that were in it and nodes created from the popped node. -/
theorem step_next_mem (grid : List (List Int)) (s s2 : SearchState)
    (h : step grid s = .next s2) :
    ∃ m, m ∈ s.openSet ∧
      ∀ n ∈ s2.openSet, n ∈ s.openSet ∨ ∃ d ∈ directions, n = childNode m d := by
  unfold step at h
  cases ht : pqTop s.openSet with
  | none => rw [ht] at h; simp at h
  | some m =>
    rw [ht] at h
    simp only [] at h
    have hm : m ∈ s.openSet := List.mem_of_mem_head? (show m ∈ s.openSet.head? from ht)
    refine ⟨m, hm, ?_⟩
    split at h
    · simp at h
    · split at h
      · simp at h
      · rename_i visited _
        split at h
        · simp at h
        · rename_i os2 hex
          simp only [StepResult.next.injEq] at h
          subst h
          intro n hn
          rcases exploreFold_mem grid visited m directions _ os2 hex n hn with h1 | h1
          · left
            rw [(top_perm s.openSet m ht).mem_iff]
            exact List.mem_cons_of_mem _ h1
          · exact Or.inr h1

theorem nodeShape_childNode (m : Node) (d : Int × Int) (hd : d ∈ directions)
    (hm : NodeShape m) : NodeShape (childNode m d) := by
  have ha := adjacent_childNode m d hd
  rw [childNode_coordinates] at ha
  exact ⟨rfl, ha, hm⟩

theorem reachable_shape (grid : List (List Int)) (s : SearchState) (hr : Reachable grid s) :
    ∀ n ∈ s.openSet, NodeShape n := by
  induction hr with
  | init =>
    intro n hn
    rw [initial_openSet, List.mem_singleton] at hn
    subst hn
    exact ⟨rfl, rfl, rfl⟩
  | next _ hs ih =>
    intro n hn
    obtain ⟨m, hm, hmem⟩ := step_next_mem grid _ _ hs
    rcases hmem n hn with h1 | ⟨d, hd, rfl⟩
    · exact ih n h1
    · exact nodeShape_childNode m d hd (ih m hm)

theorem nodeShape_root (n : Node) (h : NodeShape n) (hp : n.parent = none) :
    n = startNode := by
  cases n with
  | mk c g hh par =>
    cases par with
    | some q => simp [Node.parent] at hp
    | none =>
      simp only [NodeShape] at h
      obtain ⟨h1, h2, h3⟩ := h
      subst h1 h2 h3
      rfl

theorem nodeShape_parent (n p : Node) (h : NodeShape n) (hp : n.parent = some p) :
    n.G = p.G + 1 ∧ Adjacent p.coordinates n.coordinates ∧ NodeShape p := by
  cases n with
  | mk c g hh par =>
    cases par with
    | none => simp [Node.parent] at hp
    | some q =>
      simp only [Node.parent, Option.some.injEq] at hp
      subst hp
      simp only [NodeShape] at h
      exact h

theorem ancestors_length : ∀ n : Node, NodeShape n → (n.ancestors.length : Int) = n.G + 1
  | .mk _ _ _ none, h => by
    simp only [NodeShape] at h
    simp [Node.ancestors, Node.G, h.2.1]
  | .mk _ _ _ (some p), h => by
    simp only [NodeShape] at h
    have := ancestors_length p h.2.2
    simp only [Node.ancestors, Node.G, List.length_cons, Nat.cast_add, Nat.cast_one]
    omega

theorem ancestors_ne_nil (n : Node) : n.ancestors ≠ [] := by
  cases n with
  | mk c g h par => cases par <;> simp [Node.ancestors]

theorem ancestors_last : ∀ n : Node, NodeShape n → n.ancestors.getLast? = some startNode
  | .mk _ _ _ none, h => by
    simp only [NodeShape] at h
    obtain ⟨h1, h2, h3⟩ := h
    subst h1 h2 h3
    rfl
  | .mk _ _ _ (some p), h => by
    simp only [NodeShape] at h
    have ih := ancestors_last p h.2.2
    simp only [Node.ancestors]
    obtain ⟨x, t, hx⟩ : ∃ x t, p.ancestors = x :: t := by
      cases hp : p.ancestors with
      | nil => exact absurd hp (ancestors_ne_nil p)
      | cons x t => exact ⟨x, t, rfl⟩
    rw [hx, List.getLast?_cons_cons, ← hx]
    exact ih

theorem ancestors_shape : ∀ n : Node, NodeShape n →
    ∀ a ∈ n.ancestors, NodeShape a ∧ a.G ≤ n.G
  | .mk c g hh none, h => by
    intro a ha
    simp only [Node.ancestors, List.mem_singleton] at ha
    subst ha
    exact ⟨h, le_refl _⟩
  | .mk c g hh (some p), h => by
    intro a ha
    simp only [Node.ancestors, List.mem_cons] at ha
    rcases ha with ha | ha
    · subst ha
      exact ⟨h, le_refl _⟩
    · have hs := h
      simp only [NodeShape] at hs
      obtain ⟨h1, h2⟩ := ancestors_shape p hs.2.2 a ha
      refine ⟨h1, ?_⟩
      have hg : (Node.mk c g hh (some p)).G = g := rfl
      have hpg := hs.1
      rw [hg]
      omega

theorem ancestors_pairwise : ∀ n : Node, NodeShape n →
    List.Pairwise (fun a b => b.G < a.G) n.ancestors
  | .mk _ _ _ none, _ => by
    simp [Node.ancestors]
  | .mk c g hh (some p), h => by
    have hs := h
    simp only [NodeShape] at hs
    simp only [Node.ancestors]
    rw [List.pairwise_cons]
    refine ⟨?_, ancestors_pairwise p hs.2.2⟩
    intro a ha
    have := (ancestors_shape p hs.2.2 a ha).2
    have hg : (Node.mk c g hh (some p)).G = g := rfl
    have hpg := hs.1
    rw [hg]
    omega

/-! ## Subscripts -/

theorem index2D_none_iff {α : Type} (tbl : List (List α)) (h8 : Is8x8 tbl) (y x : Int) :
    index2D tbl y x = none ↔ ¬ (0 ≤ x ∧ x < 8 ∧ 0 ≤ y ∧ y < 8) := by
  constructor
  · intro hnone hb
    obtain ⟨v, hv⟩ := index2D_some_of_inBounds tbl h8 ⟨x, y⟩ hb
    simp only [] at hv
    rw [hv] at hnone
    simp at hnone
  · intro hb
    unfold index2D
    by_cases hneg : y < 0 ∨ x < 0
    · rw [if_pos hneg]
    · rw [if_neg hneg]
      cases hrow : tbl[y.toNat]? with
      | none => rfl
      | some row =>
        simp only []
        have hy := (List.getElem?_eq_some.mp hrow).1
        have hmem : row ∈ tbl := List.mem_iff_getElem?.mpr ⟨_, hrow⟩
        have hlen := h8.2 row hmem
        rw [h8.1] at hy
        apply List.getElem?_eq_none
        omega

theorem isValidCoordinate_iff (x y : Int) :
    isValidCoordinate x y = true ↔ (0 ≤ x ∧ x < 8 ∧ 0 ≤ y ∧ y < 8) := by
  simp only [isValidCoordinate, gridSize, Bool.and_eq_true, decide_eq_true_eq]
  constructor
  · rintro ⟨⟨⟨a, b⟩, c⟩, d⟩
    exact ⟨a, b, c, d⟩
  · rintro ⟨a, b, c, d⟩
    exact ⟨⟨⟨a, b⟩, c⟩, d⟩

theorem manhattan_nonneg (a t : Coordinate) : 0 ≤ manhattanDistance a t := by
  unfold manhattanDistance intAbs
  split <;> split <;> omega

theorem manhattan_le_14 (a t : Coordinate) (ha : InBounds a) (ht : InBounds t) :
    manhattanDistance a t ≤ 14 := by
  unfold InBounds at ha ht
  unfold manhattanDistance intAbs
  split <;> split <;> omega

/-! ## Properties of the loop of `findShortestPath` -/

/-- C11 (finalization confirms the shortest cost): on an 8x8 grid whose start cell is
free, when an iteration pops a node `m` whose cell is not yet marked in `visited` (the
iteration that marks the cell for the first time), the predecessor chain of `m` is a
route from (0,0) to that cell with exactly `m.G` edges and no route through free cells
from (0,0) to that cell has fewer edges: `m.G` is the length of a shortest route. -/
theorem finalization_cost (grid : List (List Int)) (h8 : Is8x8 grid)
    (hstart : Free grid ⟨0, 0⟩) (k : Nat) (m : Node)
    (hm : pqTop (frontierAfter grid k) = some m) (hnt : m.coordinates ≠ target)
    (hfresh : ¬ visitedAt (visitedAfter grid k) m.coordinates) :
    visitedAt (visitedAfter grid (k + 1)) m.coordinates ∧
      RouteFromTo grid ⟨0, 0⟩ m.coordinates (reconstructPath m) ∧
      ((reconstructPath m).length : Int) - 1 = m.G ∧
      ∀ r, RouteFromTo grid ⟨0, 0⟩ m.coordinates r → m.G ≤ (r.length : Int) - 1 := by
  obtain ⟨s, hs, hf, hv⟩ := frontierAfter_top grid k m hm
  rw [hf] at hm
  rw [hv] at hfresh
  have hreach := stateAfter_reachable grid k s hs
  have hinv := reachable_inv grid h8 s hreach
  have hmem : m ∈ s.openSet := List.mem_of_mem_head? (show m ∈ s.openSet.head? from hm)
  have hwf := hinv.wf m hmem
  obtain ⟨s2, hst, hset, -⟩ := step_next_eq grid h8 s hinv m hm hnt
  have hs2 := stateAfter_step grid k s s2 hs hst
  have hv2 := (frontierAfter_of_state grid (k + 1) s2 hs2).2
  have hmark := (visitedAt_set2D s.visited s2.visited hinv.vis8 m.coordinates
    (nodeWF_inBounds grid m hwf) hset).2 m.coordinates
  refine ⟨?_, reconstructPath_route grid hstart m hwf, ?_, ?_⟩
  · rw [hv2]
    exact hmark.mpr (Or.inl rfl)
  · have := reconstructPath_length grid m hwf
    omega
  · intro r hr
    have := top_cost_le_route grid h8 s hreach m hm hfresh r hr
    omega

/-- Witness for C11: the fifth pop on the grid of `main`, which marks cell (1,1). -/
theorem finalization_cost_witness :
    Is8x8 mainGrid ∧ Free mainGrid ⟨0, 0⟩ ∧ pqTop (frontierAfter mainGrid 4) = some newerNode ∧
      newerNode.coordinates ≠ target ∧
      ¬ visitedAt (visitedAfter mainGrid 4) newerNode.coordinates ∧
      (visitedAt (visitedAfter mainGrid 5) newerNode.coordinates ∧
        RouteFromTo mainGrid ⟨0, 0⟩ newerNode.coordinates (reconstructPath newerNode) ∧
        ((reconstructPath newerNode).length : Int) - 1 = newerNode.G ∧
        ∀ r, RouteFromTo mainGrid ⟨0, 0⟩ newerNode.coordinates r →
          newerNode.G ≤ (r.length : Int) - 1) :=
  ⟨by decide, by decide, by decide, by decide, by decide,
    finalization_cost mainGrid (by decide) (by decide) 4 newerNode (by decide) (by decide)
      (by decide)⟩

/-- C12 (predecessor tree): at every loop head of a run, on any grid, every node of the
frontier and every node on its predecessor chain is either the start node (no
predecessor, `G = 0`) or has a predecessor of cost exactly `G - 1`, strictly smaller,
on a 4-adjacent cell; following the predecessor references from a frontier node reaches
the start node after exactly `G` steps, and the costs strictly decrease along the
chain, so no node occurs twice on it. -/
theorem predecessor_tree (grid : List (List Int)) (k : Nat) (n : Node)
    (hn : n ∈ frontierAfter grid k) :
    (startNode.parent = none ∧ startNode.G = 0) ∧
      (∀ a ∈ n.ancestors,
        (a.parent = none → a = startNode) ∧
        ∀ p, a.parent = some p →
          p.G = a.G - 1 ∧ p.G < a.G ∧ Adjacent p.coordinates a.coordinates) ∧
      0 ≤ n.G ∧ n.ancestors[n.G.toNat]? = some startNode ∧
      (n.ancestors.length : Int) = n.G + 1 ∧
      List.Pairwise (fun a b => b.G < a.G) n.ancestors := by
  obtain ⟨s, hs, hf, -⟩ := frontierAfter_mem grid k n hn
  rw [hf] at hn
  have hshape := reachable_shape grid s (stateAfter_reachable grid k s hs) n hn
  have hlen := ancestors_length n hshape
  have hlast := ancestors_last n hshape
  have hpos : 0 < n.ancestors.length := List.length_pos.mpr (ancestors_ne_nil n)
  have hG : 0 ≤ n.G := by omega
  refine ⟨⟨rfl, rfl⟩, ?_, hG, ?_, hlen, ancestors_pairwise n hshape⟩
  · intro a ha
    have hsa := (ancestors_shape n hshape a ha).1
    refine ⟨nodeShape_root a hsa, ?_⟩
    intro p hp
    obtain ⟨h1, h2, -⟩ := nodeShape_parent a p hsa hp
    exact ⟨by omega, by omega, h2⟩
  · rw [List.getLast?_eq_getElem?] at hlast
    have : n.G.toNat = n.ancestors.length - 1 := by omega
    rw [this]
    exact hlast

/-- Witness for C12: a node of the frontier after four iterations on the grid of
`main`. -/
theorem predecessor_tree_witness :
    newerNode ∈ frontierAfter mainGrid 4 ∧
      ((startNode.parent = none ∧ startNode.G = 0) ∧
        (∀ a ∈ newerNode.ancestors,
          (a.parent = none → a = startNode) ∧
          ∀ p, a.parent = some p →
            p.G = a.G - 1 ∧ p.G < a.G ∧ Adjacent p.coordinates a.coordinates) ∧
        0 ≤ newerNode.G ∧ newerNode.ancestors[newerNode.G.toNat]? = some startNode ∧
        (newerNode.ancestors.length : Int) = newerNode.G + 1 ∧
        List.Pairwise (fun a b => b.G < a.G) newerNode.ancestors) :=
  ⟨by decide, predecessor_tree mainGrid 4 newerNode (by decide)⟩

/-- C13 (expansion step): on an 8x8 grid, the iteration that pops a node `m` outside
the target leaves as frontier the popped frontier followed by the pushes, in this
order, of the neighbours up, right, down, left of `m` that are inside the bounds, of
grid value 0 and not marked in `visited` (before or after the marking of the cell of
`m`, which makes no difference), and of no other node; each inserted node has cost
`m.G + 1`, the Manhattan distance to (7,7) as heuristic and `m` as predecessor. -/
theorem expansion_step (grid : List (List Int)) (h8 : Is8x8 grid) (k : Nat) (m : Node)
    (hm : pqTop (frontierAfter grid k) = some m) (hnt : m.coordinates ≠ target) :
    frontierAfter grid (k + 1) =
        (expectedInsertions grid (visitedAfter grid k) m).foldl (pqPush nodeComp)
          (pqPop nodeComp (frontierAfter grid k)) ∧
      expectedInsertions grid (visitedAfter grid (k + 1)) m =
        expectedInsertions grid (visitedAfter grid k) m ∧
      ∀ n ∈ expectedInsertions grid (visitedAfter grid k) m,
        n.G = m.G + 1 ∧ n.H = manhattanDistance n.coordinates ⟨7, 7⟩ ∧ n.parent = some m := by
  obtain ⟨s, hs, hf, hv⟩ := frontierAfter_top grid k m hm
  rw [hf] at hm
  have hinv := stateAfter_inv grid h8 k s hs
  have hmem : m ∈ s.openSet := List.mem_of_mem_head? (show m ∈ s.openSet.head? from hm)
  obtain ⟨s2, hst, hset, hopen⟩ := step_next_eq grid h8 s hinv m hm hnt
  have hs2 := stateAfter_step grid k s s2 hs hst
  obtain ⟨hf2, hv2⟩ := frontierAfter_of_state grid (k + 1) s2 hs2
  have hmark := (visitedAt_set2D s.visited s2.visited hinv.vis8 m.coordinates
    (nodeWF_inBounds grid m (hinv.wf m hmem)) hset).2
  have hcongr : expectedInsertions grid s2.visited m = expectedInsertions grid s.visited m := by
    apply expectedInsertions_congr
    intro c hc
    rw [hmark c]
    simp [hc]
  rw [hf, hv, hf2, hv2]
  refine ⟨?_, hcongr, ?_⟩
  · rw [hopen, children_eq_expected, hcongr]
  · intro n hn
    unfold expectedInsertions at hn
    have hn2 := List.mem_of_mem_filter hn
    simp only [List.mem_cons, List.mem_singleton, List.not_mem_nil, or_false] at hn2
    rcases hn2 with h | h | h | h <;> subst h <;> exact ⟨rfl, rfl, rfl⟩

/-- Witness for C13: the fifth iteration on the grid of `main`, which expands (1,1) and
inserts nodes for (2,1) and (1,2). -/
theorem expansion_step_witness :
    Is8x8 mainGrid ∧ pqTop (frontierAfter mainGrid 4) = some newerNode ∧
      newerNode.coordinates ≠ target ∧
      (expectedInsertions mainGrid (visitedAfter mainGrid 4) newerNode).map Node.coordinates =
        [⟨2, 1⟩, ⟨1, 2⟩] ∧
      (frontierAfter mainGrid 5 =
          (expectedInsertions mainGrid (visitedAfter mainGrid 4) newerNode).foldl
            (pqPush nodeComp) (pqPop nodeComp (frontierAfter mainGrid 4)) ∧
        expectedInsertions mainGrid (visitedAfter mainGrid 5) newerNode =
          expectedInsertions mainGrid (visitedAfter mainGrid 4) newerNode ∧
        ∀ n ∈ expectedInsertions mainGrid (visitedAfter mainGrid 4) newerNode,
          n.G = newerNode.G + 1 ∧ n.H = manhattanDistance n.coordinates ⟨7, 7⟩ ∧
            n.parent = some newerNode) :=
  ⟨by decide, by decide, by decide, by decide,
    expansion_step mainGrid (by decide) 4 newerNode (by decide) (by decide)⟩

/-- C14 (lowest priority first): on an 8x8 grid, every time a node is removed from the
frontier its priority `F = G + H` is at most the priority of every node that remains
in the frontier after the removal. -/
theorem lowest_priority_first (grid : List (List Int)) (h8 : Is8x8 grid) (k : Nat) (m : Node)
    (hm : pqTop (frontierAfter grid k) = some m) :
    ∀ n ∈ pqPop nodeComp (frontierAfter grid k), m.F ≤ n.F := by
  obtain ⟨s, hs, hf, -⟩ := frontierAfter_top grid k m hm
  rw [hf] at hm ⊢
  intro n hn
  have hinv := stateAfter_inv grid h8 k s hs
  refine top_min s.openSet m hinv.heap hm n ?_
  rw [(top_perm s.openSet m hm).mem_iff]
  exact List.mem_cons_of_mem _ hn

/-- Witness for C14: the ninth removal on the grid of `main`. -/
theorem lowest_priority_first_witness :
    Is8x8 mainGrid ∧
      pqTop (frontierAfter mainGrid 8) = some ((frontierAfter mainGrid 8).getD 0 startNode) ∧
      ∀ n ∈ pqPop nodeComp (frontierAfter mainGrid 8),
        ((frontierAfter mainGrid 8).getD 0 startNode).F ≤ n.F :=
  ⟨by decide, by decide, lowest_priority_first mainGrid (by decide) 8 _ (by decide)⟩

/-- C15 (heuristic consistency): for coordinates `a`, `b`, `t` inside the 8x8 grid with
`a` and `b` 4-adjacent, `manhattanDistance a t <= 1 + manhattanDistance b t`; moreover
`manhattanDistance t t = 0` and `manhattanDistance a t` is not negative (the distances
are at most 14, so no `int` overflows in their computation). -/
theorem heuristic_consistency (a b t : Coordinate) (ha : InBounds a) (hb : InBounds b)
    (ht : InBounds t) (hadj : Adjacent a b) :
    manhattanDistance a t ≤ 1 + manhattanDistance b t ∧ manhattanDistance t t = 0 ∧
      0 ≤ manhattanDistance a t ∧ manhattanDistance a t ≤ 14 ∧
      manhattanDistance b t ≤ 14 := by
  have h1 := manhattan_consistent a b t hadj
  exact ⟨by omega, manhattan_self t, manhattan_nonneg a t, manhattan_le_14 a t ha ht,
    manhattan_le_14 b t hb ht⟩

/-- Witness for C15: a step away from the target in the corner opposite to it. -/
theorem heuristic_consistency_witness :
    InBounds ⟨0, 0⟩ ∧ InBounds ⟨1, 0⟩ ∧ InBounds ⟨7, 7⟩ ∧ Adjacent ⟨0, 0⟩ ⟨1, 0⟩ ∧
      (manhattanDistance ⟨0, 0⟩ ⟨7, 7⟩ ≤ 1 + manhattanDistance ⟨1, 0⟩ ⟨7, 7⟩ ∧
        manhattanDistance ⟨7, 7⟩ ⟨7, 7⟩ = 0 ∧ 0 ≤ manhattanDistance ⟨0, 0⟩ ⟨7, 7⟩ ∧
        manhattanDistance ⟨0, 0⟩ ⟨7, 7⟩ ≤ 14 ∧ manhattanDistance ⟨1, 0⟩ ⟨7, 7⟩ ≤ 14) :=
  ⟨by decide, by decide, by decide, by decide,
    heuristic_consistency ⟨0, 0⟩ ⟨1, 0⟩ ⟨7, 7⟩ (by decide) (by decide) (by decide) (by decide)⟩

/-- C16 (heuristic admissibility): on every grid, for every coordinate `c`, the value
`manhattanDistance c (7,7)` is at most the number of edges of every 4-directional route
through free cells from `c` to (7,7). -/
theorem heuristic_admissible (grid : List (List Int)) (c : Coordinate) (r : List Coordinate)
    (hr : RouteFromTo grid c ⟨7, 7⟩ r) :
    manhattanDistance c ⟨7, 7⟩ ≤ (r.length : Int) - 1 := by
  obtain ⟨⟨hne, -, hch⟩, hhead, hlast⟩ := hr
  cases r with
  | nil => exact absurd rfl hne
  | cons c2 r2 =>
    simp only [List.head?_cons, Option.some.injEq] at hhead
    subst hhead
    have hch2 : List.Chain Adjacent c2 r2 := hch
    have := manhattan_le_chain ⟨7, 7⟩ r2 c2 hch2 hlast
    simp only [List.length_cons, Nat.cast_add, Nat.cast_one]
    omega

/-- Witness for C16: the route printed by `main`, whose 14 edges equal the heuristic
of the start. -/
theorem heuristic_admissible_witness :
    RouteFromTo mainGrid ⟨0, 0⟩ ⟨7, 7⟩ mainPath ∧
      manhattanDistance ⟨0, 0⟩ ⟨7, 7⟩ ≤ (mainPath.length : Int) - 1 :=
  ⟨⟨⟨by decide, by decide, by simp [mainPath, Adjacent]⟩, by decide, by decide⟩,
    heuristic_admissible mainGrid ⟨0, 0⟩ mainPath
      ⟨⟨by decide, by decide, by simp [mainPath, Adjacent]⟩, by decide, by decide⟩⟩

/-- C17 (priorities of pops do not decrease): on an 8x8 grid, the node popped at a
loop head has a priority `F = G + H` at most that of the node popped at any later loop
head of the same run; and every frontier node has a priority at least that of its
predecessor, the node it was created from. -/
theorem pops_nondecreasing (grid : List (List Int)) (h8 : Is8x8 grid) (j k : Nat) (a b : Node)
    (hjk : j ≤ k) (ha : pqTop (frontierAfter grid j) = some a)
    (hb : pqTop (frontierAfter grid k) = some b) :
    a.F ≤ b.F ∧ ∀ n ∈ frontierAfter grid k, ∀ p, n.parent = some p → p.F ≤ n.F := by
  refine ⟨?_, ?_⟩
  · obtain ⟨d, rfl⟩ : ∃ d, k = j + d := ⟨k - j, by omega⟩
    exact tops_monotone grid h8 d j a b ha hb
  · obtain ⟨s, hs, hf, -⟩ := frontierAfter_top grid k b hb
    rw [hf]
    intro n hn p hp
    exact parent_F_le grid n p ((stateAfter_inv grid h8 k s hs).wf n hn) hp

/-- Witness for C17: the pops at loop heads 4 and 30 on the grid of `main`. -/
theorem pops_nondecreasing_witness :
    Is8x8 mainGrid ∧ 4 ≤ 30 ∧ pqTop (frontierAfter mainGrid 4) = some newerNode ∧
      pqTop (frontierAfter mainGrid 30) = some ((frontierAfter mainGrid 30).getD 0 startNode) ∧
      (newerNode.F ≤ ((frontierAfter mainGrid 30).getD 0 startNode).F ∧
        ∀ n ∈ frontierAfter mainGrid 30, ∀ p, n.parent = some p → p.F ≤ n.F) :=
  ⟨by decide, by decide, by decide, by decide,
    pops_nondecreasing mainGrid (by decide) 4 30 newerNode _ (by decide) (by decide)
      (by decide)⟩

/-- C18 (subscripts stay in range): on a grid of exactly 8 rows of exactly 8 entries,
the total lookup answers `none` exactly outside `0 <= x < 8`, `0 <= y < 8`, for the grid
and for the `visited` table of every loop head; the bounds check lets exactly the
coordinates of that range through; every node of a frontier, hence every popped node
whose cell is written, lies in that range; no iteration reaches the out-of-range
branch, and `findShortestPath` does not end there. -/
theorem index_safety (grid : List (List Int)) (h8 : Is8x8 grid) :
    findShortestPath grid ≠ .outOfRange ∧
      (∀ y x : Int, index2D grid y x = none ↔ ¬ (0 ≤ x ∧ x < 8 ∧ 0 ≤ y ∧ y < 8)) ∧
      (∀ x y : Int, isValidCoordinate x y = true ↔ (0 ≤ x ∧ x < 8 ∧ 0 ≤ y ∧ y < 8)) ∧
      ∀ k s, stateAfter grid k = some s →
        step grid s ≠ .fault ∧
        (∀ y x : Int, index2D s.visited y x = none ↔ ¬ (0 ≤ x ∧ x < 8 ∧ 0 ≤ y ∧ y < 8)) ∧
        ∀ n ∈ s.openSet, 0 ≤ n.coordinates.x ∧ n.coordinates.x < 8 ∧
          0 ≤ n.coordinates.y ∧ n.coordinates.y < 8 := by
  refine ⟨?_, index2D_none_iff grid h8, isValidCoordinate_iff, ?_⟩
  · obtain ⟨p, hp⟩ := findShortestPath_returns grid h8
    rw [hp]
    simp
  · intro k s hs
    have hinv := stateAfter_inv grid h8 k s hs
    exact ⟨step_not_fault grid h8 s hinv, index2D_none_iff s.visited hinv.vis8,
      fun n hn => nodeWF_inBounds grid n (hinv.wf n hn)⟩

/-- Witness for C18: the grid of `main`. -/
theorem index_safety_witness :
    Is8x8 mainGrid ∧
      (findShortestPath mainGrid ≠ .outOfRange ∧
        (∀ y x : Int, index2D mainGrid y x = none ↔ ¬ (0 ≤ x ∧ x < 8 ∧ 0 ≤ y ∧ y < 8)) ∧
        (∀ x y : Int, isValidCoordinate x y = true ↔ (0 ≤ x ∧ x < 8 ∧ 0 ≤ y ∧ y < 8)) ∧
        ∀ k s, stateAfter mainGrid k = some s →
          step mainGrid s ≠ .fault ∧
          (∀ y x : Int, index2D s.visited y x = none ↔ ¬ (0 ≤ x ∧ x < 8 ∧ 0 ≤ y ∧ y < 8)) ∧
          ∀ n ∈ s.openSet, 0 ≤ n.coordinates.x ∧ n.coordinates.x < 8 ∧
            0 ≤ n.coordinates.y ∧ n.coordinates.y < 8) :=
  ⟨by decide, index_safety mainGrid (by decide)⟩

/-- C19 (no repeated coordinate, length is cost plus one): on an 8x8 grid, a path
returned by `findShortestPath` contains no coordinate twice, and a non-empty returned
path is the reconstruction of the node popped on the target at the last loop head, of
length `G + 1` for the cost `G` of that node. -/
theorem path_nodup (grid : List (List Int)) (h8 : Is8x8 grid) (p : List Coordinate)
    (hp : findShortestPath grid = .returned p) :
    p.Nodup ∧
      (p ≠ [] → ∃ k m, pqTop (frontierAfter grid k) = some m ∧ m.coordinates = target ∧
        p = reconstructPath m ∧ (p.length : Int) = m.G + 1) := by
  obtain ⟨k, s, q, -, hadv, hdone, hfuel⟩ :=
    loop_ends grid h8 (5 ^ 64 + 1) initialState (inv_initial grid)
      (by rw [potential_initial_eq]; omega)
  have hq : findShortestPath grid = .returned q := hfuel searchFuel (by decide)
  rw [hq] at hp
  simp only [Outcome.returned.injEq] at hp
  subst hp
  have hs : stateAfter grid k = some s := hadv
  rcases step_done_spec grid s q hdone with ⟨-, hnil⟩ | ⟨m, ht, htar, hrec⟩
  · subst hnil
    exact ⟨List.nodup_nil, fun h => absurd rfl h⟩
  · have hreach := stateAfter_reachable grid k s hs
    have hmem : m ∈ s.openSet := List.mem_of_mem_head? (show m ∈ s.openSet.head? from ht)
    have hnd := (reachable_chainInv grid h8 s hreach m hmem).1
    have hwf := (reachable_inv grid h8 s hreach).wf m hmem
    subst hrec
    refine ⟨?_, fun _ => ⟨k, m, ?_, htar, rfl, reconstructPath_length grid m hwf⟩⟩
    · unfold reconstructPath
      exact List.nodup_reverse.mpr hnd
    · rw [(frontierAfter_of_state grid k s hs).1]
      exact ht

/-- Witness for C19: the grid of `main`. -/
theorem path_nodup_witness :
    Is8x8 mainGrid ∧ findShortestPath mainGrid = .returned mainPath ∧
      (mainPath.Nodup ∧
        (mainPath ≠ [] → ∃ k m, pqTop (frontierAfter mainGrid k) = some m ∧
          m.coordinates = target ∧ mainPath = reconstructPath m ∧
          (mainPath.length : Int) = m.G + 1)) :=
  ⟨by decide, by decide!, path_nodup mainGrid (by decide) mainPath (by decide!)⟩

end AStar
